import Mathlib

/-!
# Enclose server: rules engine, session and hub

A shallow embedding of the packaged variant of the server
(`internal/game`, `internal/handler`, `internal/hub`, `internal/player`).

Conventions of the embedding.

* Go `int` is `Int`; slice and array indexing returns `Option`, where `none`
  stands for the run-time panic "index out of range".
* A Go `map[string]*T` is an association list keyed by the string id, with
  map insertion replacing an existing key.
* `time.Now()` is an explicit argument, a natural number of seconds.
* A handler that takes the session lock once, on entry, is the sequential
  function of the state it computes while it holds the lock. The mutex itself
  (`Mutex`) is modelled where a handler acquires it a second time:
  `HandleReady` calls `AllPlayersReady` while it holds the lock. The transport
  is not modelled.
-/

namespace Enclose

/-! ## Indexing -/

/-- Go slice read `l[i]`: `none` when `i` is out of range. -/
def idx {α : Type} (l : List α) (i : Int) : Option α :=
  if 0 ≤ i then l[i.toNat]? else none

/-- Go slice write `l[i] = v`: `none` when `i` is out of range. -/
def setIdx {α : Type} (l : List α) (i : Int) (v : α) : Option (List α) :=
  if 0 ≤ i ∧ i.toNat < l.length then some (l.set i.toNat v) else none

/-- Go read `m[y][x]` of a slice of slices. -/
def at2 {α : Type} (m : List (List α)) (x y : Int) : Option α :=
  match idx m y with
  | none => none
  | some row => idx row x

/-- Go write `m[y][x] = v` of a slice of slices. -/
def set2 {α : Type} (m : List (List α)) (x y : Int) (v : α) : Option (List (List α)) :=
  match idx m y with
  | none => none
  | some row =>
    match setIdx row x v with
    | none => none
    | some row' => setIdx m y row'

/-! ## internal/game/game_state.go -/

/-- The board cell `Point`. -/
structure Point where
  X : Int
  Y : Int
  Owner : Int
  Sealed : Bool
deriving DecidableEq

/-- The constant `GRID_SIZE`. -/
def GRID_SIZE : Nat := 64

/-- The constant `MAX_PLAYERS`. -/
def MAX_PLAYERS : Nat := 2

/-- The session state `State`; `Scores` is the array `[2]int`. -/
structure State where
  Grid : List (List Point)
  Scores : Int × Int
  CurrentTurn : Int
  GameOver : Bool
  Message : String
  PlayersReady : List Bool
  LastMoveAt : Nat
deriving DecidableEq

/-- The function `createGrid`: a `size × size` board of unclaimed, unsealed cells. -/
def createGrid (size : Nat) : List (List Point) :=
  (List.range size).map (fun (y : Nat) =>
    (List.range size).map (fun (x : Nat) =>
      { X := Int.ofNat x, Y := Int.ofNat y, Owner := 0, Sealed := false }))

/-- The function `NewState`: `Message`, `PlayersReady` and `LastMoveAt` keep
their zero values (`PlayersReady` is the nil slice). -/
def NewState : State :=
  { Grid := createGrid 64
    Scores := (0, 0)
    CurrentTurn := 1
    GameOver := false
    Message := ""
    PlayersReady := []
    LastMoveAt := 0 }

/-! ## internal/game/logic.go -/

/-- The function `deepCopyGrid`: a value copy of every row. -/
def deepCopyGrid (grid : List (List Point)) : List (List Point) :=
  grid.map (fun row => row.map (fun c => c))

/-- The seed queue of `detectEnclosures`: for every `i < size` the four
coordinates `{0,i}`, `{size-1,i}`, `{i,0}`, `{i,size-1}`, in this order. -/
def edgeQueue (size : Nat) : List (Int × Int) :=
  (List.range size).flatMap (fun (i : Nat) =>
    [((0 : Int), Int.ofNat i), (Int.ofNat size - 1, Int.ofNat i), (Int.ofNat i, (0 : Int)),
      (Int.ofNat i, Int.ofNat size - 1)])

/-- The slice `directions` of `detectEnclosures`. -/
def directions : List (Int × Int) := [(1, 0), (-1, 0), (0, 1), (0, -1)]

/-- The inner loop `for _, d := range directions` of the search: appends to the
queue every neighbour that is inside the board and not yet visited. -/
def pushNeighbours (size : Int) (visited : List (List Bool)) (x y : Int) :
    List (Int × Int) → List (Int × Int) → Option (List (Int × Int))
  | queue, [] => some queue
  | queue, d :: ds =>
    if x + d.1 ≥ 0 ∧ x + d.1 < size ∧ y + d.2 ≥ 0 ∧ y + d.2 < size then
      match at2 visited (x + d.1) (y + d.2) with
      | none => none
      | some true => pushNeighbours size visited x y queue ds
      | some false => pushNeighbours size visited x y (queue ++ [(x + d.1, y + d.2)]) ds
    else pushNeighbours size visited x y queue ds

/-- The loop `for len(queue) > 0` of `detectEnclosures`. The first argument
bounds the number of iterations; `none` is a panic or an exhausted bound
(`bfs_runs`: on a square board the bound `4 * size + 4 * size * size` passed by
`detectEnclosures` is not exhausted and no access is out of range). -/
def bfs (grid : List (List Point)) (currentPlayer size : Int) :
    Nat → List (Int × Int) → List (List Bool) → Option (List (List Bool))
  | _, [], visited => some visited
  | 0, _ :: _, _ => none
  | fuel + 1, (x, y) :: queue, visited =>
    match at2 visited x y with
    | none => none
    | some true => bfs grid currentPlayer size fuel queue visited
    | some false =>
      match at2 grid x y with
      | none => none
      | some c =>
        if c.Owner = currentPlayer ∨ c.Sealed = true then
          bfs grid currentPlayer size fuel queue visited
        else
          match set2 visited x y true with
          | none => none
          | some visited' =>
            match pushNeighbours size visited' x y queue directions with
            | none => none
            | some queue' => bfs grid currentPlayer size fuel queue' visited'

/-- Counters kept beside the search loop: the number of executions of the loop
body, the cells marked visited, and the coordinates appended to the queue by
the loop, each in order of occurrence. -/
structure BfsTrace where
  iterations : Nat
  marked : List (Int × Int)
  pushed : List (Int × Int)

/-- The loop `for len(queue) > 0` of `detectEnclosures`, as `bfs`, with the
counters of `BfsTrace` updated at each iteration (`bfsTrace_erase`: dropping
the counters gives `bfs`). -/
def bfsTrace (grid : List (List Point)) (currentPlayer size : Int) :
    Nat → List (Int × Int) → List (List Bool) → BfsTrace → Option (List (List Bool) × BfsTrace)
  | _, [], visited, tr => some (visited, tr)
  | 0, _ :: _, _, _ => none
  | fuel + 1, (x, y) :: queue, visited, tr =>
    match at2 visited x y with
    | none => none
    | some true =>
      bfsTrace grid currentPlayer size fuel queue visited
        { tr with iterations := tr.iterations + 1 }
    | some false =>
      match at2 grid x y with
      | none => none
      | some c =>
        if c.Owner = currentPlayer ∨ c.Sealed = true then
          bfsTrace grid currentPlayer size fuel queue visited
            { tr with iterations := tr.iterations + 1 }
        else
          match set2 visited x y true with
          | none => none
          | some visited' =>
            match pushNeighbours size visited' x y queue directions with
            | none => none
            | some queue' =>
              bfsTrace grid currentPlayer size fuel queue' visited'
                { iterations := tr.iterations + 1
                  marked := tr.marked ++ [(x, y)]
                  pushed := tr.pushed ++ queue'.drop queue.length }

/-- One iteration of the sealing loops of `detectEnclosures` at cell `(x, y)`. -/
def sealCell (currentPlayer : Int) (visited : List (List Bool))
    (st : List (List Point) × Bool) (c : Int × Int) : Option (List (List Point) × Bool) :=
  match at2 visited c.1 c.2 with
  | none => none
  | some true => some st
  | some false =>
    match at2 st.1 c.1 c.2 with
    | none => none
    | some p =>
      if p.Sealed = true then some st
      else
        match set2 st.1 c.1 c.2 { p with Sealed := true } with
        | none => none
        | some g => some (g, if p.Owner ≠ 0 ∧ p.Owner ≠ currentPlayer then true else st.2)

/-- The coordinates visited by `for y < size { for x < size { .. } }`, in order. -/
def scanOrder (size : Nat) : List (Int × Int) :=
  (List.range size).flatMap (fun (y : Nat) =>
    (List.range size).map (fun (x : Nat) => (Int.ofNat x, Int.ofNat y)))

/-- The sealing loops of `detectEnclosures`. -/
def sealLoop (currentPlayer : Int) (visited : List (List Bool)) :
    List (Int × Int) → List (List Point) × Bool → Option (List (List Point) × Bool)
  | [], st => some st
  | c :: cs, st =>
    match sealCell currentPlayer visited st c with
    | none => none
    | some st' => sealLoop currentPlayer visited cs st'

/-- The function `detectEnclosures`. -/
def detectEnclosures (grid : List (List Point)) (currentPlayer : Int) :
    Option (List (List Point) × Bool) :=
  let newGrid := deepCopyGrid grid
  let size := newGrid.length
  let visited := List.replicate size (List.replicate size false)
  match bfs newGrid currentPlayer (size : Int) (4 * size + 4 * size * size)
      (edgeQueue size) visited with
  | none => none
  | some visited' => sealLoop currentPlayer visited' (scanOrder size) (newGrid, false)

/-- The function `calculateScore`. -/
def calculateScore (grid : List (List Point)) (player : Int) : Int :=
  ((grid.map (fun row =>
    row.countP (fun c => c.Sealed && decide (c.Owner ≠ 0) && decide (c.Owner ≠ player)))).sum : Nat)

/-- The function `isGameOver`. -/
def isGameOver (grid : List (List Point)) : Bool :=
  grid.all (fun row => row.all (fun c => decide (c.Owner ≠ 0)))

/-- The function `getGameResult`. -/
def getGameResult (grid : List (List Point)) : String :=
  let p1 : Nat := (grid.map (fun row => row.countP (fun c => decide (c.Owner = 1)))).sum
  let p2 : Nat := (grid.map (fun row => row.countP (fun c => decide (c.Owner = 2)))).sum
  if p1 > p2 then "Player 1 Wins!"
  else if p2 > p1 then "Player 2 Wins!"
  else "It's a Tie!"


/-! ## Arrays of two scores -/

/-- Write `a[i] = v` to the array `[2]int`: `none` when `i` is out of range. -/
def setScore (scores : Int × Int) (i : Int) (v : Int) : Option (Int × Int) :=
  if i = 0 then some (v, scores.2)
  else if i = 1 then some (scores.1, v)
  else none

/-- Read `a[i]` of the array `[2]int`: `none` when `i` is out of range. -/
def getScore (scores : Int × Int) (i : Int) : Option Int :=
  if i = 0 then some scores.1
  else if i = 1 then some scores.2
  else none

/-! ## internal/player/player.go -/

/-- The participant `Player` (the transport handle `Conn` is left out). -/
structure Player where
  ID : String
  Number : Int
  GameID : String
  LastSeen : Nat
deriving DecidableEq

/-! ## internal/game/game.go -/

/-- The session `Game`; `Players` is the map from `Player.ID` to the player. -/
structure Game where
  ID : String
  Players : List Player
  State : State
  createdAt : Nat
deriving DecidableEq

/-- Map insertion `players[p.ID] = p`. -/
def mapInsert (players : List Player) (p : Player) : List Player :=
  if players.any (fun q => decide (q.ID = p.ID)) then
    players.map (fun q => if q.ID = p.ID then p else q)
  else players ++ [p]

/-- Map deletion `delete(players, id)`. -/
def mapDelete (players : List Player) (id : String) : List Player :=
  players.filter (fun q => decide (q.ID ≠ id))

/-- The function `generateID`: `"game-"` followed by the time stamp in seconds
(the source formats the same second as `20060102150405`). -/
def generateID (now : Nat) : String :=
  "game-" ++ toString now

/-- The function `NewGame`. -/
def NewGame (now : Nat) : Game :=
  { ID := generateID now, Players := [], State := NewState, createdAt := now }

/-- The method `IsExpired`: older than 30 minutes. -/
def IsExpired (g : Game) (now : Nat) : Bool :=
  decide (now - g.createdAt > 30 * 60)

/-- The method `IsEmpty`. -/
def IsEmpty (g : Game) : Bool :=
  decide (g.Players.length = 0)

/-- The method `IsFull`. -/
def IsFull (g : Game) : Bool :=
  decide (g.Players.length ≥ MAX_PLAYERS)

/-- The session lock `Mu`, a `sync.RWMutex`: free, held by a writer, or held by
a number of readers. -/
inductive Mutex where
  | free
  | locked
  | rlocked (readers : Nat)
deriving DecidableEq

/-- The call `Mu.Lock()`: the mutex once the lock is taken, `none` when the
call has to wait because the mutex is held. -/
def Mutex.Lock : Mutex → Option Mutex
  | Mutex.free => some Mutex.locked
  | Mutex.locked => none
  | Mutex.rlocked _ => none

/-- The call `Mu.RLock()`: the mutex once the read lock is taken, `none` when
the call has to wait because a writer holds the mutex. -/
def Mutex.RLock : Mutex → Option Mutex
  | Mutex.free => some (Mutex.rlocked 1)
  | Mutex.rlocked readers => some (Mutex.rlocked (readers + 1))
  | Mutex.locked => none

/-- The method `AllPlayersReady`, entered with the session mutex in state `mu`:
it takes `Mu.RLock()` first, and `none` stands for a call that waits there;
otherwise the loop over `PlayersReady` gives the result (and the deferred
`RUnlock` gives the read lock back). -/
def AllPlayersReady (mu : Mutex) (g : Game) : Option Bool :=
  match mu.RLock with
  | none => none
  | some _ => some (g.State.PlayersReady.all (fun ready => ready))

/-- The method `Start`. -/
def Start (g : Game) : Game :=
  { g with State := { g.State with CurrentTurn := 1, GameOver := false, Message := "Game started!" } }

/-- The method `Reset`. -/
def Reset (g : Game) : Game :=
  { g with State := NewState }

/-- The method `AddPlayer`: the session, the player as written by the call, and
the returned flag. -/
def AddPlayer (g : Game) (p : Player) : Game × Player × Bool :=
  if g.Players.length ≥ MAX_PLAYERS then (g, p, false)
  else
    let p' : Player := { p with Number := Int.ofNat g.Players.length + 1, GameID := g.ID }
    ({ g with
        Players := mapInsert g.Players p'
        State := { g.State with PlayersReady := g.State.PlayersReady ++ [false] } },
      p', true)

/-- The function `ProcessMove` of logic.go. -/
def ProcessMove (g : Game) (x y playerNumber : Int) (now : Nat) : Option Game :=
  match at2 g.State.Grid x y with
  | none => none
  | some c =>
    match set2 g.State.Grid x y { c with Owner := playerNumber } with
    | none => none
    | some grid1 =>
      match detectEnclosures grid1 playerNumber with
      | none => none
      | some (newGrid, enclosed) =>
        match (if enclosed = true then
            setScore g.State.Scores (playerNumber - 1) (calculateScore newGrid playerNumber)
          else some g.State.Scores) with
        | none => none
        | some scores =>
          if isGameOver newGrid = true then
            some { g with State := { g.State with
              Grid := newGrid, Scores := scores, LastMoveAt := now,
              GameOver := true, Message := getGameResult newGrid } }
          else if enclosed = false then
            some { g with State := { g.State with
              Grid := newGrid, Scores := scores, LastMoveAt := now,
              CurrentTurn := playerNumber.tmod 2 + 1 } }
          else
            some { g with State := { g.State with
              Grid := newGrid, Scores := scores, LastMoveAt := now } }

/-! ## internal/handler -/

/-- The function `validMove` of message.go, with the short-circuit evaluation of `&&`. -/
def validMove (state : State) (x y player : Int) : Option Bool :=
  if x ≥ 0 ∧ x < Int.ofNat state.Grid.length ∧ y ≥ 0 ∧ y < Int.ofNat state.Grid.length then
    match at2 state.Grid x y with
    | none => none
    | some c => some (decide (c.Owner = 0) && decide (state.CurrentTurn = player))
  else some false

/-- The handler `HandleMove` on the session of the player. -/
def HandleMove (g : Game) (p : Player) (x y : Int) (now : Nat) : Option Game :=
  match validMove g.State x y p.Number with
  | none => none
  | some true => ProcessMove g x y p.Number now
  | some false => some g

/-- How a call of a handler that takes the session lock ends. -/
inductive Outcome where
  /-- The handler returned; the deferred `Unlock` has released the mutex. -/
  | returned (g : Game)
  /-- The handler panicked (index out of range) before it changed the session. -/
  | panicked
  /-- The handler waits on the mutex, left in state `mu`, with the session as
  it stands at that point. A wait on a mutex that the waiting call itself
  holds, or that is held by a call which waits in this way, never ends. -/
  | blocked (mu : Mutex) (g : Game)
deriving DecidableEq

/-- The handler `HandleReady` on the session of the player, entered with the
session mutex in state `mu`: `game.Mu.Lock()`, the write of the flag, then
`game.AllPlayersReady()` with the lock still held, and `Start` when that call
returns true. -/
def HandleReady (mu : Mutex) (g : Game) (p : Player) : Outcome :=
  match mu.Lock with
  | none => Outcome.blocked mu g
  | some held =>
    match setIdx g.State.PlayersReady (p.Number - 1) true with
    | none => Outcome.panicked
    | some ready =>
      let g1 : Game := { g with State := { g.State with PlayersReady := ready } }
      match AllPlayersReady held g1 with
      | none => Outcome.blocked held g1
      | some true =>
        Outcome.returned (Start { g1 with State := { g1.State with Message := "Game starting!" } })
      | some false => Outcome.returned g1

/-- The handler `HandleReset` on the session of the player. -/
def HandleReset (g : Game) : Game :=
  Reset g

/-- The handler `HandleDisconnect` on the session of the player (the removal of
an emptied session from the hub is in `Hub`). -/
def HandleDisconnect (g : Game) (p : Player) : Game :=
  let players := mapDelete g.Players p.ID
  if players.length = 0 then { g with Players := players }
  else { g with Players := players,
                State := { g.State with Message := "Player " ++ toString p.Number ++ " disconnected" } }

/-! ## internal/hub/hub.go -/

/-- The registry `Hub`; `games` is the map from `Game.ID` to the session. -/
structure Hub where
  games : List Game
  maxGames : Int
  gameCount : Int
deriving DecidableEq

/-- The function `NewHub`. -/
def NewHub (maxGames : Int) : Hub :=
  { games := [], maxGames := maxGames, gameCount := 0 }

/-- Map insertion `games[g.ID] = g`. -/
def putGame (games : List Game) (g : Game) : List Game :=
  if games.any (fun q => decide (q.ID = g.ID)) then
    games.map (fun q => if q.ID = g.ID then g else q)
  else games ++ [g]

/-- The method `FindOrCreateGame`: the registry after the call and the returned
session, `none` for the nil pointer. -/
def FindOrCreateGame (h : Hub) (now : Nat) : Hub × Option Game :=
  if h.gameCount ≥ h.maxGames then (h, none)
  else
    let games := h.games.filter (fun g => !IsExpired g now)
    match games.find? (fun g => !IsFull g) with
    | some g => ({ h with games := games }, some g)
    | none =>
      let newGame := NewGame now
      ({ h with games := putGame games newGame }, some newGame)

/-- The method `GetGame`. -/
def GetGame (h : Hub) (gameID : String) : Option Game :=
  h.games.find? (fun g => decide (g.ID = gameID))

/-- The method `RemoveGame`. -/
def RemoveGame (h : Hub) (gameID : String) : Hub :=
  { h with games := h.games.filter (fun g => decide (g.ID ≠ gameID)) }

/-- The first message sent to a connection by `InitializePlayer`. -/
inductive Outbound where
  | error (message : String)
  | connection (gameId playerId : String) (playerNumber : Int)
deriving DecidableEq

/-- The handler `InitializePlayer`: `none` is the nil dereference of
`game.AddPlayer` when `FindOrCreateGame` returned nil. -/
def InitializePlayer (h : Hub) (p : Player) (now : Nat) : Option (Hub × Player × Outbound) :=
  match FindOrCreateGame h now with
  | (_, none) => none
  | (h1, some game) =>
    match AddPlayer game p with
    | (_, _, false) => some (h1, p, Outbound.error "Game is full")
    | (game', p', true) =>
      some ({ h1 with games := putGame h1.games game' }, p',
        Outbound.connection game'.ID p'.ID p'.Number)

/-! ## Sessions as transition systems -/

/-- The events that change a session. The player of `ready` and `move` is the
player record held by the connection that sent the message; it need not be
seated any more. -/
inductive Op where
  /-- Admission: `AddPlayer` for a connecting player. -/
  | add (p : Player)
  /-- Eviction: `delete(g.Players, id)`, as run by `CheckInactivePlayers` for an idle participant. -/
  | remove (id : String)
  /-- Disconnect: `HandleDisconnect` for the player of a closed connection. -/
  | disconnect (p : Player)
  /-- Ready: `HandleReady` for the player of a connection. -/
  | ready (p : Player)
  /-- Move: `HandleMove` for the player of a connection, accepted or not. -/
  | move (p : Player) (x y : Int) (now : Nat)
  /-- Reset: `HandleReset`. -/
  | reset

/-- The session left by a call of `HandleReady` on the session `g`. -/
def Outcome.session (g : Game) : Outcome → Game
  | Outcome.returned g' => g'
  | Outcome.panicked => g
  | Outcome.blocked _ g' => g'

/-- One event, handled with the session lock free on entry. A handler that
panics is recovered by the HTTP server; the session is then as it stood before
the handler: `HandleReady` can only panic at its first statement, and
`HandleMove` does not panic on the states reached from a new session
(`HandleMove_runs`). A call of `HandleReady` that blocks leaves the session as
it stands at that point, with the lock held, so that no later handler enters
the session; `run` goes on from that state all the same and so covers every
state the server reaches. -/
def step (g : Game) : Op → Game
  | Op.add p => (AddPlayer g p).1
  | Op.remove id => { g with Players := mapDelete g.Players id }
  | Op.disconnect p => HandleDisconnect g p
  | Op.ready p => (HandleReady Mutex.free g p).session g
  | Op.move p x y now => (HandleMove g p x y now).getD g
  | Op.reset => HandleReset g

/-- The session after a sequence of events. -/
def run (g : Game) (ops : List Op) : Game :=
  ops.foldl step g

/-! ## Vocabulary of the specification -/

/-- A slice of slices with `n` rows of `n` entries each. -/
def Square {α : Type} (n : Nat) (m : List (List α)) : Prop :=
  m.length = n ∧ ∀ row ∈ m, row.length = n

/-- The coordinate `c = (x, y)` lies on an `n × n` board. -/
def InBoard (n : Nat) (c : Int × Int) : Prop :=
  0 ≤ c.1 ∧ c.1 < n ∧ 0 ≤ c.2 ∧ c.2 < n

/-- The cell at `c` exists, is not owned by `k` and is not sealed. -/
def Traversable (grid : List (List Point)) (k : Int) (c : Int × Int) : Prop :=
  ∃ p, at2 grid c.1 c.2 = some p ∧ p.Owner ≠ k ∧ p.Sealed = false

/-- The coordinate lies on the outer frame: row 0, row `n-1`, column 0 or column `n-1`. -/
def OnFrame (n : Nat) (c : Int × Int) : Prop :=
  InBoard n c ∧ (c.1 = 0 ∨ c.1 = (n : Int) - 1 ∨ c.2 = 0 ∨ c.2 = (n : Int) - 1)

/-- The cells `a` and `b` are 4-neighbours. -/
def Adjacent (a b : Int × Int) : Prop :=
  (b.1 = a.1 + 1 ∧ b.2 = a.2) ∨ (b.1 = a.1 - 1 ∧ b.2 = a.2) ∨
    (b.1 = a.1 ∧ b.2 = a.2 + 1) ∨ (b.1 = a.1 ∧ b.2 = a.2 - 1)

/-- There is a 4-connected path `s :: path` that starts at a frame cell `s`, ends
at `c`, and all of whose cells (both ends included) are traversable. -/
def ReachableFromFrame (grid : List (List Point)) (n : Nat) (k : Int) (c : Int × Int) : Prop :=
  ∃ (s : Int × Int) (path : List (Int × Int)), OnFrame n s ∧ List.Chain Adjacent s path ∧
    (s :: path).getLast? = some c ∧ ∀ d ∈ s :: path, Traversable grid k d

/-- Inductive form of `ReachableFromFrame`, used in the proofs. -/
inductive Reach (grid : List (List Point)) (n : Nat) (k : Int) : Int × Int → Prop
  | seed (c : Int × Int) : OnFrame n c → Traversable grid k c → Reach grid n k c
  | step (a b : Int × Int) : Reach grid n k a → Adjacent a b → Traversable grid k b →
      Reach grid n k b

/-- Number of `false` entries of the `visited` matrix. -/
def unvisited (visited : List (List Bool)) : Nat :=
  (visited.map (fun row => row.count false)).sum

/-- Every claimed cell of the board is sealed. -/
def OwnedSealed (grid : List (List Point)) : Prop :=
  ∀ (x y : Int) (p : Point), at2 grid x y = some p → p.Owner ≠ 0 → p.Sealed = true

/-- The number of cells of the board that are sealed and whose owner is neither
`0` nor `k`, counted over all cells. -/
def sealedForeignCount (grid : List (List Point)) (k : Int) : Int :=
  Int.ofNat (grid.flatten.filter
    (fun c => c.Sealed && decide (c.Owner ≠ 0) && decide (c.Owner ≠ k))).length

/-- The facts about a session state kept by every event: the board is the full
`GRID_SIZE × GRID_SIZE` matrix, the turn cursor is 1 or 2, and a finished game
has no unclaimed cell. -/
def SessionInv (g : Game) : Prop :=
  Square GRID_SIZE g.State.Grid ∧ (g.State.CurrentTurn = 1 ∨ g.State.CurrentTurn = 2) ∧
    (g.State.GameOver = true → isGameOver g.State.Grid = true)

/-- The number of cells of the board owned by `k`, counted over all cells. -/
def ownedCount (grid : List (List Point)) (k : Int) : Nat :=
  (grid.flatten.filter (fun c => decide (c.Owner = k))).length

/-- The facts about a session state kept by every event in play: `SessionInv`,
every claimed cell is sealed, and the scores are `[0, 0]`. -/
def PlayInv (g : Game) : Prop :=
  SessionInv g ∧ OwnedSealed g.State.Grid ∧ g.State.Scores = (0, 0)

/-! ## Concrete inputs -/

/-- A connection seated as participant 1 of the session created at time 0. -/
def firstPlayer : Player := { ID := "player-1", Number := 1, GameID := "game-0", LastSeen := 0 }

/-- A connection seated as participant 2 of the session created at time 0. -/
def secondPlayer : Player := { ID := "player-2", Number := 2, GameID := "game-0", LastSeen := 0 }

/-- A 3 × 3 board on which participant 1 has ringed a stone of participant 2. -/
def ringBoard : List (List Point) :=
  [[⟨0, 0, 0, false⟩, ⟨1, 0, 1, false⟩, ⟨2, 0, 0, false⟩],
   [⟨0, 1, 1, false⟩, ⟨1, 1, 2, false⟩, ⟨2, 1, 1, false⟩],
   [⟨0, 2, 0, false⟩, ⟨1, 2, 1, false⟩, ⟨2, 2, 0, false⟩]]

/-- A session on a 3 × 3 board in which participant 1, to move, completes the
ring around the stone of participant 2 by playing `(1, 2)`. -/
def ringGame : Game :=
  { ID := "game-0"
    Players := [firstPlayer, secondPlayer]
    State :=
      { Grid :=
          [[⟨0, 0, 0, false⟩, ⟨1, 0, 1, false⟩, ⟨2, 0, 0, false⟩],
           [⟨0, 1, 1, false⟩, ⟨1, 1, 2, false⟩, ⟨2, 1, 1, false⟩],
           [⟨0, 2, 0, false⟩, ⟨1, 2, 0, false⟩, ⟨2, 2, 0, false⟩]]
        Scores := (0, 0)
        CurrentTurn := 1
        GameOver := false
        Message := "Game started!"
        PlayersReady := [true, true]
        LastMoveAt := 0 }
    createdAt := 0 }

/-- A session on a 2 × 2 board with a single unclaimed cell, `(1, 1)`, and
participant 1 to move. -/
def lastCellGame : Game :=
  { ID := "game-0"
    Players := [firstPlayer, secondPlayer]
    State :=
      { Grid :=
          [[⟨0, 0, 1, true⟩, ⟨1, 0, 2, true⟩],
           [⟨0, 1, 2, true⟩, ⟨1, 1, 0, false⟩]]
        Scores := (0, 0)
        CurrentTurn := 1
        GameOver := false
        Message := "Game started!"
        PlayersReady := [true, true]
        LastMoveAt := 0 }
    createdAt := 0 }

/-- A new connection, as built by `player.New`: not yet seated. -/
def connA : Player := { ID := "player-a", Number := 0, GameID := "", LastSeen := 0 }

/-- A second new connection. -/
def connB : Player := { ID := "player-b", Number := 0, GameID := "", LastSeen := 0 }

/-- A third new connection. -/
def connC : Player := { ID := "player-c", Number := 0, GameID := "", LastSeen := 1 }

/-- A session on a 4 × 4 board with no sealed cell: participant 1 owns `(0, 1)`,
`(1, 0)` and `(2, 1)`, participant 2 owns `(1, 1)`, every other cell is
unclaimed, scores are `[0, 0]` and participant 1 is to move. -/
def enclosureGame : Game :=
  { ID := "game-0"
    Players := [firstPlayer, secondPlayer]
    State :=
      { Grid :=
          [[⟨0, 0, 0, false⟩, ⟨1, 0, 1, false⟩, ⟨2, 0, 0, false⟩, ⟨3, 0, 0, false⟩],
           [⟨0, 1, 1, false⟩, ⟨1, 1, 2, false⟩, ⟨2, 1, 1, false⟩, ⟨3, 1, 0, false⟩],
           [⟨0, 2, 0, false⟩, ⟨1, 2, 0, false⟩, ⟨2, 2, 0, false⟩, ⟨3, 2, 0, false⟩],
           [⟨0, 3, 0, false⟩, ⟨1, 3, 0, false⟩, ⟨2, 3, 0, false⟩, ⟨3, 3, 0, false⟩]]
        Scores := (0, 0)
        CurrentTurn := 1
        GameOver := false
        Message := "Game started!"
        PlayersReady := [true, true]
        LastMoveAt := 0 }
    createdAt := 0 }

/-- The session `enclosureGame` after the move of participant 1 at `(1, 2)`,
committed at time 9. -/
def enclosureAfter : Game :=
  { ID := "game-0"
    Players := [firstPlayer, secondPlayer]
    State :=
      { Grid :=
          [[⟨0, 0, 0, false⟩, ⟨1, 0, 1, true⟩, ⟨2, 0, 0, false⟩, ⟨3, 0, 0, false⟩],
           [⟨0, 1, 1, true⟩, ⟨1, 1, 2, true⟩, ⟨2, 1, 1, true⟩, ⟨3, 1, 0, false⟩],
           [⟨0, 2, 0, false⟩, ⟨1, 2, 1, true⟩, ⟨2, 2, 0, false⟩, ⟨3, 2, 0, false⟩],
           [⟨0, 3, 0, false⟩, ⟨1, 3, 0, false⟩, ⟨2, 3, 0, false⟩, ⟨3, 3, 0, false⟩]]
        Scores := (1, 0)
        CurrentTurn := 1
        GameOver := false
        Message := "Game started!"
        PlayersReady := [true, true]
        LastMoveAt := 9 }
    createdAt := 0 }

/-- A session on a 2 × 2 board on which participant 1 owns two cells,
participant 2 one, `(1, 1)` is unclaimed and participant 1 is to move. -/
def winGame : Game :=
  { ID := "game-0"
    Players := [firstPlayer, secondPlayer]
    State :=
      { Grid :=
          [[⟨0, 0, 1, true⟩, ⟨1, 0, 2, true⟩],
           [⟨0, 1, 1, true⟩, ⟨1, 1, 0, false⟩]]
        Scores := (0, 0)
        CurrentTurn := 1
        GameOver := false
        Message := "Game started!"
        PlayersReady := [true, true]
        LastMoveAt := 0 }
    createdAt := 0 }

/-- The mover of move number `i` (counted from 0) when the two participants
alternate, participant 1 first. -/
def fillPlayer (i : Nat) : Player :=
  if i % 2 = 0 then firstPlayer else secondPlayer

/-- Move number `i` of the game that claims the cells of the 64 × 64 board in
row order: cell `(i % 64, i / 64)`, sent at time `i`. -/
def fillOp (i : Nat) : Op :=
  Op.move (fillPlayer i) ((i % 64 : Nat) : Int) ((i / 64 : Nat) : Int) i

/-- The first `m` moves of that game. -/
def fillOps (m : Nat) : List Op :=
  (List.range m).map fillOp

/-! # Proofs

## Indexing lemmas -/

theorem idx_eq_some {α : Type} {l : List α} {i : Int} {a : α} :
    idx l i = some a ↔ 0 ≤ i ∧ l[i.toNat]? = some a := by
  unfold idx
  by_cases h : 0 ≤ i <;> simp [h]

theorem idx_some_of_lt {α : Type} {l : List α} {i : Int} (h0 : 0 ≤ i) (h1 : i < l.length) :
    ∃ a, idx l i = some a ∧ a ∈ l := by
  have hlt : i.toNat < l.length := by omega
  refine ⟨l[i.toNat], ?_, List.getElem_mem _⟩
  simp [idx, h0, List.getElem?_eq_getElem hlt]

theorem idx_lt {α : Type} {l : List α} {i : Int} {a : α} (h : idx l i = some a) :
    0 ≤ i ∧ i < l.length ∧ a ∈ l := by
  rw [idx_eq_some] at h
  obtain ⟨h0, h1⟩ := h
  obtain ⟨hlt, rfl⟩ := List.getElem?_eq_some_iff.mp h1
  exact ⟨h0, by omega, List.getElem_mem _⟩

theorem setIdx_eq_some {α : Type} {l l' : List α} {i : Int} {v : α} :
    setIdx l i v = some l' ↔ (0 ≤ i ∧ i < l.length) ∧ l' = l.set i.toNat v := by
  unfold setIdx
  by_cases h : 0 ≤ i ∧ i.toNat < l.length
  · rw [if_pos h]
    constructor
    · intro e
      exact ⟨⟨h.1, by omega⟩, by simpa using e.symm⟩
    · rintro ⟨_, rfl⟩
      rfl
  · rw [if_neg h]
    constructor
    · intro e
      cases e
    · rintro ⟨⟨h0, h1⟩, _⟩
      exact absurd ⟨h0, by omega⟩ h

theorem idx_set {α : Type} (l : List α) (i j : Int) (v : α) (hi : 0 ≤ i) (hl : i < l.length) :
    idx (l.set i.toNat v) j = if j = i then some v else idx l j := by
  unfold idx
  by_cases hj : 0 ≤ j
  · simp only [hj, if_true]
    by_cases e : j = i
    · subst e
      simp only [if_true]
      rw [List.getElem?_set_self]
      simpa using (by omega : j.toNat < l.length)
    · simp only [e, if_false]
      rw [List.getElem?_set_ne]
      omega
  · have : j ≠ i := by omega
    simp [hj, this]

theorem at2_inb {α : Type} {n : Nat} {m : List (List α)} (hm : Square n m) {x y : Int} {a : α}
    (h : at2 m x y = some a) : 0 ≤ x ∧ x < n ∧ 0 ≤ y ∧ y < n := by
  unfold at2 at h
  cases hr : idx m y with
  | none => simp [hr] at h
  | some row =>
    simp only [hr] at h
    obtain ⟨hy0, hy1, hmem⟩ := idx_lt hr
    obtain ⟨hx0, hx1, _⟩ := idx_lt h
    rw [hm.2 row hmem] at hx1
    rw [hm.1] at hy1
    exact ⟨hx0, hx1, hy0, hy1⟩

theorem at2_some_of_inb {α : Type} {n : Nat} {m : List (List α)} (hm : Square n m) {x y : Int}
    (hx0 : 0 ≤ x) (hx1 : x < n) (hy0 : 0 ≤ y) (hy1 : y < n) : ∃ a, at2 m x y = some a := by
  obtain ⟨row, hr, hmem⟩ := idx_some_of_lt (l := m) hy0 (by rw [hm.1]; exact hy1)
  obtain ⟨a, ha, _⟩ := idx_some_of_lt (l := row) hx0 (by rw [hm.2 row hmem]; exact hx1)
  exact ⟨a, by simp [at2, hr, ha]⟩

theorem set2_eq_some {α : Type} {m m' : List (List α)} {x y : Int} {v : α}
    (h : set2 m x y v = some m') :
    ∃ row, idx m y = some row ∧ (0 ≤ x ∧ x < row.length) ∧ (0 ≤ y ∧ y < m.length) ∧
      m' = m.set y.toNat (row.set x.toNat v) := by
  unfold set2 at h
  cases hr : idx m y with
  | none => simp [hr] at h
  | some row =>
    simp only [hr] at h
    cases hs : setIdx row x v with
    | none => simp [hs] at h
    | some row' =>
      simp only [hs] at h
      obtain ⟨hx, rfl⟩ := setIdx_eq_some.mp hs
      obtain ⟨hy, rfl⟩ := setIdx_eq_some.mp h
      exact ⟨row, rfl, hx, hy, rfl⟩

theorem set2_some_of_inb {α : Type} {n : Nat} {m : List (List α)} (hm : Square n m) {x y : Int}
    (hx0 : 0 ≤ x) (hx1 : x < n) (hy0 : 0 ≤ y) (hy1 : y < n) (v : α) :
    ∃ m', set2 m x y v = some m' := by
  obtain ⟨row, hr, hmem⟩ := idx_some_of_lt (l := m) hy0 (by rw [hm.1]; exact hy1)
  have hrl := hm.2 row hmem
  have h1 : setIdx row x v = some (row.set x.toNat v) :=
    setIdx_eq_some.mpr ⟨⟨hx0, by rw [hrl]; exact hx1⟩, rfl⟩
  have h2 : setIdx m y (row.set x.toNat v) = some (m.set y.toNat (row.set x.toNat v)) :=
    setIdx_eq_some.mpr ⟨⟨hy0, by rw [hm.1]; exact hy1⟩, rfl⟩
  refine ⟨m.set y.toNat (row.set x.toNat v), ?_⟩
  simp [set2, hr, h1, h2]

theorem set2_square {α : Type} {n : Nat} {m m' : List (List α)} (hm : Square n m) {x y : Int}
    {v : α} (h : set2 m x y v = some m') : Square n m' := by
  obtain ⟨row, hr, _, _, rfl⟩ := set2_eq_some h
  obtain ⟨_, _, hmem⟩ := idx_lt hr
  refine ⟨by simpa using hm.1, ?_⟩
  intro r hrm
  rcases List.mem_or_eq_of_mem_set hrm with h1 | h1
  · exact hm.2 r h1
  · subst h1
    simpa using hm.2 row hmem

theorem at2_set2 {α : Type} {m m' : List (List α)} {x y : Int} {v : α}
    (h : set2 m x y v = some m') (x' y' : Int) :
    at2 m' x' y' = if x' = x ∧ y' = y then some v else at2 m x' y' := by
  obtain ⟨row, hr, hx, hy, rfl⟩ := set2_eq_some h
  unfold at2
  rw [idx_set m y y' _ hy.1 hy.2]
  by_cases ey : y' = y
  · subst ey
    simp only [if_true, and_true, hr]
    rw [idx_set row x x' _ hx.1 hx.2]
  · simp [ey]


/-! ## Paths -/

theorem reach_of_path {grid : List (List Point)} {n : Nat} {k : Int} {c : Int × Int} :
    ∀ (path : List (Int × Int)) (s : Int × Int), Reach grid n k s → List.Chain Adjacent s path →
      (s :: path).getLast? = some c → (∀ d ∈ path, Traversable grid k d) → Reach grid n k c := by
  intro path
  induction path with
  | nil =>
    intro s hs _ hl _
    simp at hl
    exact hl ▸ hs
  | cons d rest ih =>
    intro s hs hc hl ht
    rw [List.chain_cons] at hc
    have hd : Reach grid n k d := Reach.step s d hs hc.1 (ht d (List.mem_cons_self _ _))
    refine ih d hd hc.2 ?_ (fun e he => ht e (List.mem_cons_of_mem _ he))
    rw [List.getLast?_cons_cons] at hl
    exact hl

theorem path_snoc {grid : List (List Point)} {k : Int} {c b : Int × Int}
    (hadj : Adjacent c b) (hb : Traversable grid k b) :
    ∀ (path : List (Int × Int)) (s : Int × Int), List.Chain Adjacent s path →
      (s :: path).getLast? = some c → (∀ d ∈ s :: path, Traversable grid k d) →
      ∃ path', List.Chain Adjacent s path' ∧ (s :: path').getLast? = some b ∧
        ∀ d ∈ s :: path', Traversable grid k d := by
  intro path
  induction path with
  | nil =>
    intro s _ hl ht
    simp at hl
    subst hl
    refine ⟨[b], ?_, by simp, ?_⟩
    · exact List.Chain.cons hadj List.Chain.nil
    · intro d hd
      simp at hd
      rcases hd with rfl | rfl
      · exact ht _ (List.mem_cons_self _ _)
      · exact hb
  | cons e rest ih =>
    intro s hc hl ht
    rw [List.chain_cons] at hc
    rw [List.getLast?_cons_cons] at hl
    obtain ⟨p', h1, h2, h3⟩ := ih e hc.2 hl (fun d hd => ht d (List.mem_cons_of_mem _ hd))
    refine ⟨e :: p', List.Chain.cons hc.1 h1, ?_, ?_⟩
    · rw [List.getLast?_cons_cons]
      exact h2
    · intro d hd
      rcases List.mem_cons.mp hd with rfl | hd'
      · exact ht _ (List.mem_cons_self _ _)
      · exact h3 d hd'

theorem reachableFromFrame_iff_reach {grid : List (List Point)} {n : Nat} {k : Int}
    {c : Int × Int} : ReachableFromFrame grid n k c ↔ Reach grid n k c := by
  constructor
  · rintro ⟨s, path, hf, hc, hl, ht⟩
    exact reach_of_path path s (Reach.seed s hf (ht s (List.mem_cons_self _ _))) hc hl
      (fun d hd => ht d (List.mem_cons_of_mem _ hd))
  · intro h
    induction h with
    | seed c hf ht =>
      refine ⟨c, [], hf, List.Chain.nil, by simp, ?_⟩
      intro d hd
      simp at hd
      exact hd ▸ ht
    | step a b _ hadj hb ih =>
      obtain ⟨s, path, hf, hc, hl, ht⟩ := ih
      obtain ⟨p', h1, h2, h3⟩ := path_snoc hadj hb path s hc hl ht
      exact ⟨s, p', hf, h1, h2, h3⟩

theorem adjacent_iff (a b : Int × Int) :
    Adjacent a b ↔ ∃ d ∈ directions, b = (a.1 + d.1, a.2 + d.2) := by
  obtain ⟨a1, a2⟩ := a
  obtain ⟨b1, b2⟩ := b
  simp only [Adjacent, directions, List.mem_cons, List.mem_singleton, List.not_mem_nil,
    or_false, exists_eq_or_imp, exists_eq_left, Prod.mk.injEq]
  constructor
  · rintro (⟨h1, h2⟩ | ⟨h1, h2⟩ | ⟨h1, h2⟩ | ⟨h1, h2⟩)
    · exact Or.inl ⟨h1, by omega⟩
    · exact Or.inr (Or.inl ⟨by omega, by omega⟩)
    · exact Or.inr (Or.inr (Or.inl ⟨by omega, h2⟩))
    · exact Or.inr (Or.inr (Or.inr ⟨by omega, by omega⟩))
  · rintro (⟨h1, h2⟩ | ⟨h1, h2⟩ | ⟨h1, h2⟩ | ⟨h1, h2⟩)
    · exact Or.inl ⟨h1, by omega⟩
    · exact Or.inr (Or.inl ⟨by omega, by omega⟩)
    · exact Or.inr (Or.inr (Or.inl ⟨by omega, h2⟩))
    · exact Or.inr (Or.inr (Or.inr ⟨by omega, by omega⟩))

/-! ## The search -/

theorem pushNeighbours_spec {n : Nat} {visited : List (List Bool)} (hv : Square n visited)
    (x y : Int) : ∀ (ds queue : List (Int × Int)),
      ∃ q', pushNeighbours (n : Int) visited x y queue ds = some q' ∧
        q'.length ≤ queue.length + ds.length ∧
        ∀ c, c ∈ q' ↔ c ∈ queue ∨
          (∃ d ∈ ds, c = (x + d.1, y + d.2)) ∧ InBoard n c ∧ at2 visited c.1 c.2 = some false := by
  intro ds
  induction ds with
  | nil =>
    intro queue
    exact ⟨queue, rfl, by simp, by simp⟩
  | cons d ds ih =>
    intro queue
    unfold pushNeighbours
    by_cases hb : x + d.1 ≥ 0 ∧ x + d.1 < (n : Int) ∧ y + d.2 ≥ 0 ∧ y + d.2 < (n : Int)
    · rw [if_pos hb]
      obtain ⟨v, hvv⟩ := at2_some_of_inb hv hb.1 hb.2.1 hb.2.2.1 hb.2.2.2
      rw [hvv]
      cases v with
      | true =>
        obtain ⟨q', h1, h2, h3⟩ := ih queue
        refine ⟨q', h1, by simp only [List.length_cons]; omega, ?_⟩
        intro c
        rw [h3 c]
        constructor
        · rintro (h | ⟨⟨e, he, rfl⟩, hi, ha⟩)
          · exact Or.inl h
          · exact Or.inr ⟨⟨e, List.mem_cons_of_mem _ he, rfl⟩, hi, ha⟩
        · rintro (h | ⟨⟨e, he, rfl⟩, hi, ha⟩)
          · exact Or.inl h
          · rcases List.mem_cons.mp he with rfl | he'
            · rw [hvv] at ha
              cases ha
            · exact Or.inr ⟨⟨e, he', rfl⟩, hi, ha⟩
      | false =>
        obtain ⟨q', h1, h2, h3⟩ := ih (queue ++ [(x + d.1, y + d.2)])
        refine ⟨q', h1, ?_, ?_⟩
        · simp only [List.length_append, List.length_cons, List.length_nil] at h2
          simp only [List.length_cons]
          omega
        · intro c
          rw [h3 c]
          constructor
          · rintro (h | ⟨⟨e, he, rfl⟩, hi, ha⟩)
            · rcases List.mem_append.mp h with h | h
              · exact Or.inl h
              · simp only [List.mem_singleton] at h
                subst h
                exact Or.inr ⟨⟨d, List.mem_cons_self _ _, rfl⟩, ⟨hb.1, hb.2.1, hb.2.2.1, hb.2.2.2⟩,
                  hvv⟩
            · exact Or.inr ⟨⟨e, List.mem_cons_of_mem _ he, rfl⟩, hi, ha⟩
          · rintro (h | ⟨⟨e, he, rfl⟩, hi, ha⟩)
            · exact Or.inl (List.mem_append_left _ h)
            · rcases List.mem_cons.mp he with rfl | he'
              · exact Or.inl (List.mem_append_right _ (by simp))
              · exact Or.inr ⟨⟨e, he', rfl⟩, hi, ha⟩
    · rw [if_neg hb]
      obtain ⟨q', h1, h2, h3⟩ := ih queue
      refine ⟨q', h1, by simp only [List.length_cons]; omega, ?_⟩
      intro c
      rw [h3 c]
      constructor
      · rintro (h | ⟨⟨e, he, rfl⟩, hi, ha⟩)
        · exact Or.inl h
        · exact Or.inr ⟨⟨e, List.mem_cons_of_mem _ he, rfl⟩, hi, ha⟩
      · rintro (h | ⟨⟨e, he, rfl⟩, hi, ha⟩)
        · exact Or.inl h
        · rcases List.mem_cons.mp he with rfl | he'
          · exact absurd ⟨hi.1, hi.2.1, hi.2.2.1, hi.2.2.2⟩ hb
          · exact Or.inr ⟨⟨e, he', rfl⟩, hi, ha⟩

theorem sum_map_set {α : Type} (f : α → Nat) (l : List α) (i : Nat) (h : i < l.length) (a : α) :
    ((l.set i a).map f).sum + f (l[i]) = (l.map f).sum + f a := by
  induction l generalizing i with
  | nil => simp at h
  | cons b t ih =>
    cases i with
    | zero =>
      simp only [List.set_cons_zero, List.map_cons, List.sum_cons, List.getElem_cons_zero]
      omega
    | succ j =>
      have hj : j < t.length := by simpa using h
      have := ih j hj
      simp only [List.set_cons_succ, List.map_cons, List.sum_cons, List.getElem_cons_succ]
      omega

theorem count_false_set (row : List Bool) (j : Nat) (h : j < row.length) (hf : row[j] = false) :
    (row.set j true).count false + 1 = row.count false := by
  induction row generalizing j with
  | nil => simp at h
  | cons b t ih =>
    cases j with
    | zero =>
      simp only [List.getElem_cons_zero] at hf
      subst hf
      simp
    | succ i =>
      have hi : i < t.length := by simpa using h
      simp only [List.getElem_cons_succ] at hf
      have := ih i hi hf
      cases b <;> simp [List.count_cons] <;> omega

theorem unvisited_set2 {visited visited' : List (List Bool)} {x y : Int}
    (hf : at2 visited x y = some false) (hs : set2 visited x y true = some visited') :
    unvisited visited' + 1 = unvisited visited := by
  obtain ⟨row, hr, hx, hy, rfl⟩ := set2_eq_some hs
  have hrow : at2 visited x y = idx row x := by simp [at2, hr]
  rw [hrow, idx_eq_some] at hf
  obtain ⟨hlt, hget⟩ := List.getElem?_eq_some_iff.mp hf.2
  obtain ⟨_, hr'⟩ := idx_eq_some.mp hr
  obtain ⟨hylt, hyget⟩ := List.getElem?_eq_some_iff.mp hr'
  have h1 := sum_map_set (fun r : List Bool => r.count false) visited y.toNat hylt
    (row.set x.toNat true)
  have h2 := count_false_set row x.toNat hlt hget
  rw [hyget] at h1
  unfold unvisited
  omega

theorem traversable_inBoard {grid : List (List Point)} {n : Nat} {k : Int} (hg : Square n grid)
    {c : Int × Int} (h : Traversable grid k c) : InBoard n c := by
  obtain ⟨p, hp, _⟩ := h
  exact at2_inb hg hp

theorem bfs_spec {grid : List (List Point)} {n : Nat} (k : Int) (hg : Square n grid) :
    ∀ (fuel : Nat) (q : List (Int × Int)) (vis : List (List Bool)),
      Square n vis →
      (∀ c ∈ q, InBoard n c) →
      q.length + 4 * unvisited vis ≤ fuel →
      (∀ c : Int × Int, at2 vis c.1 c.2 = some true → Reach grid n k c) →
      (∀ c ∈ q, Traversable grid k c → Reach grid n k c) →
      (∀ c : Int × Int, OnFrame n c → Traversable grid k c →
        at2 vis c.1 c.2 = some true ∨ c ∈ q) →
      (∀ v w : Int × Int, at2 vis v.1 v.2 = some true → Adjacent v w → Traversable grid k w →
        at2 vis w.1 w.2 = some true ∨ w ∈ q) →
      ∃ vis', bfs grid k (n : Int) fuel q vis = some vis' ∧ Square n vis' ∧
        ∀ c : Int × Int, at2 vis' c.1 c.2 = some true ↔ Reach grid n k c := by
  intro fuel
  induction fuel with
  | zero =>
    intro q vis hv _ hfuel hsound _ hframe hadj
    have hq : q = [] := by
      cases q with
      | nil => rfl
      | cons a t => simp at hfuel
    subst hq
    refine ⟨vis, by simp [bfs], hv, fun c => ⟨hsound c, ?_⟩⟩
    intro hr
    induction hr with
    | seed c hf ht => simpa using hframe c hf ht
    | step a b _ hab hb ih => simpa using hadj a b ih hab hb
  | succ fuel ih =>
    intro q vis hv hin hfuel hsound hqs hframe hadj
    cases q with
    | nil =>
      refine ⟨vis, by simp [bfs], hv, fun c => ⟨hsound c, ?_⟩⟩
      intro hr
      induction hr with
      | seed c hf ht => simpa using hframe c hf ht
      | step a b _ hab hb ih => simpa using hadj a b ih hab hb
    | cons c rest =>
      obtain ⟨x, y⟩ := c
      have hxy : InBoard n (x, y) := hin _ (List.mem_cons_self _ _)
      have hinr : ∀ c ∈ rest, InBoard n c := fun c hc => hin c (List.mem_cons_of_mem _ hc)
      simp only [List.length_cons] at hfuel
      obtain ⟨b, hb⟩ := at2_some_of_inb hv hxy.1 hxy.2.1 hxy.2.2.1 hxy.2.2.2
      cases b with
      | true =>
        have hstep : bfs grid k (n : Int) (fuel + 1) ((x, y) :: rest) vis
            = bfs grid k (n : Int) fuel rest vis := by
          simp only [bfs, hb]
        rw [hstep]
        refine ih rest vis hv hinr (by omega) hsound
          (fun c hc => hqs c (List.mem_cons_of_mem _ hc)) ?_ ?_
        · intro c hf ht
          rcases hframe c hf ht with h | h
          · exact Or.inl h
          · rcases List.mem_cons.mp h with rfl | h
            · exact Or.inl hb
            · exact Or.inr h
        · intro v w hvv hvw hw
          rcases hadj v w hvv hvw hw with h | h
          · exact Or.inl h
          · rcases List.mem_cons.mp h with rfl | h
            · exact Or.inl hb
            · exact Or.inr h
      | false =>
        obtain ⟨p, hp⟩ := at2_some_of_inb hg hxy.1 hxy.2.1 hxy.2.2.1 hxy.2.2.2
        by_cases hskip : p.Owner = k ∨ p.Sealed = true
        · have hstep : bfs grid k (n : Int) (fuel + 1) ((x, y) :: rest) vis
              = bfs grid k (n : Int) fuel rest vis := by
            simp only [bfs, hb, hp, if_pos hskip]
          rw [hstep]
          have hnt : ¬ Traversable grid k (x, y) := by
            rintro ⟨p', hp', h1, h2⟩
            rw [hp] at hp'
            cases hp'
            rcases hskip with h | h
            · exact h1 h
            · rw [h2] at h
              cases h
          refine ih rest vis hv hinr (by omega) hsound
            (fun c hc => hqs c (List.mem_cons_of_mem _ hc)) ?_ ?_
          · intro c hf ht
            rcases hframe c hf ht with h | h
            · exact Or.inl h
            · rcases List.mem_cons.mp h with rfl | h
              · exact absurd ht hnt
              · exact Or.inr h
          · intro v w hvv hvw hw
            rcases hadj v w hvv hvw hw with h | h
            · exact Or.inl h
            · rcases List.mem_cons.mp h with rfl | h
              · exact absurd hw hnt
              · exact Or.inr h
        · obtain ⟨vis', hset⟩ := set2_some_of_inb hv hxy.1 hxy.2.1 hxy.2.2.1 hxy.2.2.2 true
          have hv' : Square n vis' := set2_square hv hset
          obtain ⟨q', hpush, hlen, hmem⟩ := pushNeighbours_spec hv' x y directions rest
          have hstep : bfs grid k (n : Int) (fuel + 1) ((x, y) :: rest) vis
              = bfs grid k (n : Int) fuel q' vis' := by
            simp only [bfs, hb, hp, if_neg hskip, hset, hpush]
          rw [hstep]
          have hcount := unvisited_set2 hb hset
          have hdir : directions.length = 4 := rfl
          have htrav : Traversable grid k (x, y) := by
            refine ⟨p, hp, fun h => hskip (Or.inl h), ?_⟩
            cases hs : p.Sealed with
            | false => rfl
            | true => exact absurd (Or.inr hs) hskip
          have hreach : Reach grid n k (x, y) := hqs _ (List.mem_cons_self _ _) htrav
          have hmono : ∀ c : Int × Int, at2 vis c.1 c.2 = some true →
              at2 vis' c.1 c.2 = some true := by
            intro c hc
            rw [at2_set2 hset]
            split
            · rfl
            · exact hc
          have hnew : ∀ w : Int × Int, Adjacent (x, y) w → Traversable grid k w →
              at2 vis' w.1 w.2 = some true ∨ w ∈ q' := by
            intro w haw hw
            have hwin := traversable_inBoard hg hw
            obtain ⟨bw, hbw⟩ := at2_some_of_inb hv' hwin.1 hwin.2.1 hwin.2.2.1 hwin.2.2.2
            cases bw with
            | true => exact Or.inl hbw
            | false =>
              right
              rw [hmem]
              exact Or.inr ⟨(adjacent_iff (x, y) w).mp haw, hwin, hbw⟩
          refine ih q' vis' hv' ?_ (by omega) ?_ ?_ ?_ ?_
          · intro c hc
            rcases (hmem c).mp hc with h | h
            · exact hinr c h
            · exact h.2.1
          · intro c hc
            rw [at2_set2 hset] at hc
            by_cases e : c.1 = x ∧ c.2 = y
            · obtain ⟨c1, c2⟩ := c
              simp only at e
              rw [e.1, e.2]
              exact hreach
            · rw [if_neg e] at hc
              exact hsound c hc
          · intro c hc ht
            rcases (hmem c).mp hc with h | h
            · exact hqs c (List.mem_cons_of_mem _ h) ht
            · exact Reach.step (x, y) c hreach ((adjacent_iff (x, y) c).mpr h.1) ht
          · intro c hf ht
            rcases hframe c hf ht with h | h
            · exact Or.inl (hmono c h)
            · rcases List.mem_cons.mp h with rfl | h
              · left
                rw [at2_set2 hset]
                simp
              · exact Or.inr ((hmem c).mpr (Or.inl h))
          · intro v w hvv hvw hw
            rw [at2_set2 hset] at hvv
            by_cases e : v.1 = x ∧ v.2 = y
            · obtain ⟨v1, v2⟩ := v
              simp only at e
              rw [e.1, e.2] at hvw
              exact hnew w hvw hw
            · rw [if_neg e] at hvv
              rcases hadj v w hvv hvw hw with h | h
              · exact Or.inl (hmono w h)
              · rcases List.mem_cons.mp h with rfl | h
                · left
                  rw [at2_set2 hset]
                  simp
                · exact Or.inr ((hmem w).mpr (Or.inl h))

/-! ## Initial state of the search -/

theorem square_replicate (n : Nat) (b : Bool) :
    Square n (List.replicate n (List.replicate n b)) := by
  refine ⟨by simp, ?_⟩
  intro row hrow
  rw [List.eq_of_mem_replicate hrow]
  simp

theorem at2_replicate {n : Nat} {b v : Bool} {x y : Int}
    (h : at2 (List.replicate n (List.replicate n b)) x y = some v) : v = b := by
  unfold at2 at h
  cases hr : idx (List.replicate n (List.replicate n b)) y with
  | none => simp [hr] at h
  | some row =>
    simp only [hr] at h
    obtain ⟨_, _, hmem⟩ := idx_lt hr
    rw [List.eq_of_mem_replicate hmem] at h
    obtain ⟨_, _, hm⟩ := idx_lt h
    exact List.eq_of_mem_replicate hm

theorem unvisited_replicate (n m : Nat) :
    unvisited (List.replicate m (List.replicate n false)) = m * n := by
  unfold unvisited
  induction m with
  | zero => simp
  | succ m ih =>
    rw [List.replicate_succ, List.map_cons, List.sum_cons, ih]
    simp [List.count_replicate_self]
    ring

theorem length_flatMap_four {α β : Type} (f : α → List β) (h : ∀ a, (f a).length = 4)
    (l : List α) : (l.flatMap f).length = 4 * l.length := by
  induction l with
  | nil => simp
  | cons a t ih =>
    rw [List.flatMap_cons, List.length_append, ih, h a, List.length_cons]
    ring

theorem length_edgeQueue (n : Nat) : (edgeQueue n).length = 4 * n := by
  have h := length_flatMap_four (fun i : Nat => [((0 : Int), Int.ofNat i),
    (Int.ofNat n - 1, Int.ofNat i), (Int.ofNat i, (0 : Int)), (Int.ofNat i, Int.ofNat n - 1)])
    (fun _ => rfl) (List.range n)
  rw [List.length_range] at h
  exact h

theorem mem_edgeQueue (n : Nat) (c : Int × Int) : c ∈ edgeQueue n ↔ OnFrame n c := by
  obtain ⟨x, y⟩ := c
  simp only [edgeQueue, List.mem_flatMap, List.mem_range, List.mem_cons, List.mem_singleton,
    List.not_mem_nil, or_false, Prod.mk.injEq, OnFrame, InBoard, Int.ofNat_eq_coe]
  constructor
  · rintro ⟨i, hi, (⟨h1, h2⟩ | ⟨h1, h2⟩ | ⟨h1, h2⟩ | ⟨h1, h2⟩)⟩
    · exact ⟨⟨by omega, by omega, by omega, by omega⟩, Or.inl h1⟩
    · exact ⟨⟨by omega, by omega, by omega, by omega⟩, Or.inr (Or.inl h1)⟩
    · exact ⟨⟨by omega, by omega, by omega, by omega⟩, Or.inr (Or.inr (Or.inl h2))⟩
    · exact ⟨⟨by omega, by omega, by omega, by omega⟩, Or.inr (Or.inr (Or.inr h2))⟩
  · rintro ⟨⟨h1, h2, h3, h4⟩, (h | h | h | h)⟩
    · exact ⟨y.toNat, by omega, Or.inl ⟨h, by omega⟩⟩
    · exact ⟨y.toNat, by omega, Or.inr (Or.inl ⟨h, by omega⟩)⟩
    · exact ⟨x.toNat, by omega, Or.inr (Or.inr (Or.inl ⟨by omega, h⟩))⟩
    · exact ⟨x.toNat, by omega, Or.inr (Or.inr (Or.inr ⟨by omega, h⟩))⟩

theorem mem_scanOrder (n : Nat) (c : Int × Int) : c ∈ scanOrder n ↔ InBoard n c := by
  obtain ⟨x, y⟩ := c
  simp only [scanOrder, List.mem_flatMap, List.mem_range, List.mem_map, Prod.mk.injEq, InBoard,
    Int.ofNat_eq_coe]
  constructor
  · rintro ⟨i, hi, j, hj, h1, h2⟩
    exact ⟨by omega, by omega, by omega, by omega⟩
  · rintro ⟨h1, h2, h3, h4⟩
    exact ⟨y.toNat, by omega, x.toNat, by omega, by omega, by omega⟩

theorem deepCopyGrid_eq (grid : List (List Point)) : deepCopyGrid grid = grid := by
  unfold deepCopyGrid
  simp

/-- The search of `detectEnclosures` on a square board returns, within the
iteration bound, the matrix that marks exactly the cells reachable from the frame. -/
theorem bfs_runs {grid : List (List Point)} {n : Nat} (k : Int) (hg : Square n grid) :
    ∃ vis, bfs grid k (n : Int) (4 * n + 4 * n * n) (edgeQueue n)
        (List.replicate n (List.replicate n false)) = some vis ∧ Square n vis ∧
      ∀ c : Int × Int, at2 vis c.1 c.2 = some true ↔ Reach grid n k c := by
  refine bfs_spec k hg _ _ _ (square_replicate n false) ?_ ?_ ?_ ?_ ?_ ?_
  · intro c hc
    exact ((mem_edgeQueue n c).mp hc).1
  · rw [length_edgeQueue, unvisited_replicate]
    have : 4 * (n * n) = 4 * n * n := by ring
    omega
  · intro c hc
    have := at2_replicate hc
    cases this
  · intro c hc ht
    exact Reach.seed c ((mem_edgeQueue n c).mp hc) ht
  · intro c hf _
    exact Or.inr ((mem_edgeQueue n c).mpr hf)
  · intro v w hv _ _
    have := at2_replicate hv
    cases this

/-! ## The sealing pass -/

theorem sealCell_spec {n : Nat} (k : Int) {vis : List (List Bool)} (hv : Square n vis)
    {g : List (List Point)} (hg : Square n g) (e : Bool) {c : Int × Int} (hc : InBoard n c) :
    ∃ st', sealCell k vis (g, e) c = some st' ∧ Square n st'.1 ∧
      (∀ (d : Int × Int) (p : Point), at2 g d.1 d.2 = some p →
        at2 st'.1 d.1 d.2 =
          some (if d = c ∧ at2 vis c.1 c.2 = some false then { p with Sealed := true } else p)) ∧
      (st'.2 = true ↔ e = true ∨ ∃ p, at2 g c.1 c.2 = some p ∧ at2 vis c.1 c.2 = some false ∧
        p.Sealed = false ∧ p.Owner ≠ 0 ∧ p.Owner ≠ k) := by
  obtain ⟨b, hb⟩ := at2_some_of_inb hv hc.1 hc.2.1 hc.2.2.1 hc.2.2.2
  obtain ⟨p, hp⟩ := at2_some_of_inb hg hc.1 hc.2.1 hc.2.2.1 hc.2.2.2
  cases b with
  | true =>
    refine ⟨(g, e), by simp [sealCell, hb], hg, ?_, ?_⟩
    · intro d q hq
      simp [hb, hq]
    · simp [hb]
  | false =>
    by_cases hs : p.Sealed = true
    · refine ⟨(g, e), by simp [sealCell, hb, hp, hs], hg, ?_, ?_⟩
      · intro d q hq
        by_cases hd : d = c
        · subst hd
          rw [hp] at hq
          cases hq
          have : ({ p with Sealed := true } : Point) = p := by
            cases p
            simp only at hs
            simp [hs]
          simp [hp, hb, this]
        · simp [hd, hq]
      · simp [hp, hs]
    · obtain ⟨g', hg'⟩ := set2_some_of_inb hg hc.1 hc.2.1 hc.2.2.1 hc.2.2.2
        ({ p with Sealed := true } : Point)
      have hsf : p.Sealed = false := by
        cases h : p.Sealed with
        | false => rfl
        | true => exact absurd h hs
      refine ⟨(g', if p.Owner ≠ 0 ∧ p.Owner ≠ k then true else e), ?_, set2_square hg hg', ?_, ?_⟩
      · simp only [sealCell, hb, hp, if_neg hs, hg']
      · intro d q hq
        show at2 g' d.1 d.2 = _
        rw [at2_set2 hg']
        by_cases hd : d = c
        · subst hd
          rw [hp] at hq
          cases hq
          simp [hb]
        · have : ¬ (d.1 = c.1 ∧ d.2 = c.2) := by
            intro h
            exact hd (Prod.ext h.1 h.2)
          simp [hd, this, hq]
      · show (if p.Owner ≠ 0 ∧ p.Owner ≠ k then true else e) = true ↔ _
        by_cases ho : p.Owner ≠ 0 ∧ p.Owner ≠ k
        · rw [if_pos ho]
          simp only [true_iff]
          exact Or.inr ⟨p, hp, hb, hsf, ho.1, ho.2⟩
        · rw [if_neg ho]
          constructor
          · exact Or.inl
          · rintro (h | ⟨q, hq, _, _, h1, h2⟩)
            · exact h
            · rw [hp] at hq
              cases hq
              exact absurd ⟨h1, h2⟩ ho

theorem sealLoop_spec {n : Nat} (k : Int) {vis : List (List Bool)} (hv : Square n vis) :
    ∀ (cs : List (Int × Int)) (g : List (List Point)) (e : Bool), Square n g →
      (∀ c ∈ cs, InBoard n c) →
      ∃ st', sealLoop k vis cs (g, e) = some st' ∧ Square n st'.1 ∧
        (∀ (d : Int × Int) (p : Point), at2 g d.1 d.2 = some p →
          at2 st'.1 d.1 d.2 =
            some (if d ∈ cs ∧ at2 vis d.1 d.2 = some false then { p with Sealed := true }
              else p)) ∧
        (st'.2 = true ↔ e = true ∨ ∃ c ∈ cs, ∃ p, at2 g c.1 c.2 = some p ∧
          at2 vis c.1 c.2 = some false ∧ p.Sealed = false ∧ p.Owner ≠ 0 ∧ p.Owner ≠ k) := by
  intro cs
  induction cs with
  | nil =>
    intro g e hg _
    exact ⟨(g, e), rfl, hg, by simp, by simp⟩
  | cons c cs ih =>
    intro g e hg hin
    obtain ⟨st1, h1, hsq1, hcell1, hflag1⟩ :=
      sealCell_spec k hv hg e (hin c (List.mem_cons_self _ _))
    obtain ⟨g1, e1⟩ := st1
    obtain ⟨st2, h2, hsq2, hcell2, hflag2⟩ :=
      ih g1 e1 hsq1 (fun d hd => hin d (List.mem_cons_of_mem _ hd))
    refine ⟨st2, by simp only [sealLoop, h1, h2], hsq2, ?_, ?_⟩
    · intro d p hp
      rw [hcell2 d _ (hcell1 d p hp)]
      by_cases hdc : d = c
      · subst hdc
        by_cases hb : at2 vis d.1 d.2 = some false
        · simp [hb]
        · simp [hb]
      · simp [hdc]
    · rw [hflag2]
      simp only at hflag1 hcell1
      constructor
      · rintro (h | ⟨d, hd, q, hq, hb, hs, ho⟩)
        · rcases hflag1.mp h with h | ⟨p, hp, hr⟩
          · exact Or.inl h
          · exact Or.inr ⟨c, List.mem_cons_self _ _, p, hp, hr⟩
        · right
          have hdin := hin d (List.mem_cons_of_mem _ hd)
          obtain ⟨p, hp⟩ := at2_some_of_inb hg hdin.1 hdin.2.1 hdin.2.2.1 hdin.2.2.2
          have := hcell1 d p hp
          rw [hq] at this
          by_cases hdc : d = c ∧ at2 vis c.1 c.2 = some false
          · rw [if_pos hdc] at this
            cases this
            simp at hs
          · rw [if_neg hdc] at this
            cases this
            exact ⟨d, List.mem_cons_of_mem _ hd, q, hp, hb, hs, ho⟩
      · rintro (h | ⟨d, hd, p, hp, hb, hs, ho⟩)
        · exact Or.inl (hflag1.mpr (Or.inl h))
        · by_cases hdc : d = c
          · subst hdc
            exact Or.inl (hflag1.mpr (Or.inr ⟨p, hp, hb, hs, ho⟩))
          · rcases List.mem_cons.mp hd with h | h
            · exact absurd h hdc
            · right
              refine ⟨d, h, p, ?_, hb, hs, ho⟩
              rw [hcell1 d p hp]
              simp [hdc]

/-! ## `detectEnclosures` -/

/-- On a square board `detectEnclosures` returns; the result is described cell by
cell through `Reach`. -/
theorem detectEnclosures_reach {grid : List (List Point)} {n : Nat} (k : Int)
    (hg : Square n grid) :
    ∃ newGrid enclosed, detectEnclosures grid k = some (newGrid, enclosed) ∧ Square n newGrid ∧
      (∀ (c : Int × Int) (p : Point), at2 grid c.1 c.2 = some p →
        ∃ p', at2 newGrid c.1 c.2 = some p' ∧ p'.X = p.X ∧ p'.Y = p.Y ∧ p'.Owner = p.Owner ∧
          (p'.Sealed = true ↔ p.Sealed = true ∨ ¬ Reach grid n k c)) ∧
      (enclosed = true ↔ ∃ (c : Int × Int) (p : Point), at2 grid c.1 c.2 = some p ∧
        ¬ Reach grid n k c ∧ p.Sealed = false ∧ p.Owner ≠ 0 ∧ p.Owner ≠ k) := by
  obtain ⟨vis, hbfs, hvis, hreach⟩ := bfs_runs k hg
  obtain ⟨st, hseal, hsq, hcell, hflag⟩ := sealLoop_spec k hvis (scanOrder n) grid false hg
    (fun c hc => (mem_scanOrder n c).mp hc)
  obtain ⟨g', e'⟩ := st
  have hvf : ∀ c : Int × Int, InBoard n c → (at2 vis c.1 c.2 = some false ↔ ¬ Reach grid n k c) := by
    intro c hc
    obtain ⟨b, hb⟩ := at2_some_of_inb hvis hc.1 hc.2.1 hc.2.2.1 hc.2.2.2
    rw [← hreach c, hb]
    cases b <;> simp
  refine ⟨g', e', ?_, hsq, ?_, ?_⟩
  · unfold detectEnclosures
    simp only [deepCopyGrid_eq, hg.1, hbfs, hseal]
  · intro c p hp
    have hc : InBoard n c := at2_inb hg hp
    refine ⟨_, hcell c p hp, ?_⟩
    by_cases hr : Reach grid n k c
    · have : ¬ (c ∈ scanOrder n ∧ at2 vis c.1 c.2 = some false) := by
        rintro ⟨_, h⟩
        exact (hvf c hc).mp h hr
      rw [if_neg this]
      simp [hr]
    · have : c ∈ scanOrder n ∧ at2 vis c.1 c.2 = some false :=
        ⟨(mem_scanOrder n c).mpr hc, (hvf c hc).mpr hr⟩
      rw [if_pos this]
      simp [hr]
  · simp only at hflag
    rw [hflag]
    constructor
    · rintro (h | ⟨c, hc, p, hp, hb, hs, ho⟩)
      · cases h
      · exact ⟨c, p, hp, (hvf c ((mem_scanOrder n c).mp hc)).mp hb, hs, ho⟩
    · rintro ⟨c, p, hp, hr, hs, ho⟩
      have hc : InBoard n c := at2_inb hg hp
      exact Or.inr ⟨c, (mem_scanOrder n c).mpr hc, p, hp, (hvf c hc).mpr hr, hs, ho⟩

/-- C1: on every square `n × n` board and for every player number `k`,
`detectEnclosures` returns a board of the same dimensions in which every cell
keeps its `X`, `Y` and `Owner`; a cell is sealed in the result iff it was sealed
in the input or is not reachable from the outer frame by a 4-connected path of
cells that are neither owned by `k` nor sealed in the input; and the returned
flag is true iff some cell newly sealed by the call has an owner other than `0`
and `k`. -/
theorem detectEnclosures_correct (n : Nat) (grid : List (List Point)) (k : Int)
    (hg : Square n grid) :
    ∃ newGrid enclosed, detectEnclosures grid k = some (newGrid, enclosed) ∧ Square n newGrid ∧
      (∀ (x y : Int) (p : Point), at2 grid x y = some p →
        ∃ p', at2 newGrid x y = some p' ∧ p'.X = p.X ∧ p'.Y = p.Y ∧ p'.Owner = p.Owner ∧
          (p'.Sealed = true ↔ p.Sealed = true ∨ ¬ ReachableFromFrame grid n k (x, y))) ∧
      (enclosed = true ↔ ∃ (x y : Int) (p p' : Point), at2 grid x y = some p ∧
        at2 newGrid x y = some p' ∧ p.Sealed = false ∧ p'.Sealed = true ∧
        p.Owner ≠ 0 ∧ p.Owner ≠ k) := by
  obtain ⟨newGrid, enclosed, hrun, hsq, hcell, hflag⟩ := detectEnclosures_reach k hg
  refine ⟨newGrid, enclosed, hrun, hsq, ?_, ?_⟩
  · intro x y p hp
    obtain ⟨p', h1, h2, h3, h4, h5⟩ := hcell (x, y) p hp
    exact ⟨p', h1, h2, h3, h4, by rw [h5, reachableFromFrame_iff_reach]⟩
  · rw [hflag]
    constructor
    · rintro ⟨c, p, hp, hr, hs, ho⟩
      obtain ⟨p', h1, _, _, _, h5⟩ := hcell c p hp
      exact ⟨c.1, c.2, p, p', hp, h1, hs, h5.mpr (Or.inr hr), ho⟩
    · rintro ⟨x, y, p, p', hp, hp', hs, hs', ho⟩
      obtain ⟨q, h1, _, _, _, h5⟩ := hcell (x, y) p hp
      rw [hp'] at h1
      cases h1
      rcases h5.mp hs' with h | h
      · rw [hs] at h
        cases h
      · exact ⟨(x, y), p, hp, h, hs, ho⟩

/-- Witness for C1: the theorem applied to the 3 × 3 ring board and player 1. -/
theorem detectEnclosures_correct_witness :
    Square 3 ringBoard ∧
    ∃ newGrid enclosed, detectEnclosures ringBoard 1 = some (newGrid, enclosed) ∧
      Square 3 newGrid ∧
      (∀ (x y : Int) (p : Point), at2 ringBoard x y = some p →
        ∃ p', at2 newGrid x y = some p' ∧ p'.X = p.X ∧ p'.Y = p.Y ∧ p'.Owner = p.Owner ∧
          (p'.Sealed = true ↔ p.Sealed = true ∨ ¬ ReachableFromFrame ringBoard 3 1 (x, y))) ∧
      (enclosed = true ↔ ∃ (x y : Int) (p p' : Point), at2 ringBoard x y = some p ∧
        at2 newGrid x y = some p' ∧ p.Sealed = false ∧ p'.Sealed = true ∧
        p.Owner ≠ 0 ∧ p.Owner ≠ 1) :=
  ⟨by simp [Square, ringBoard],
    detectEnclosures_correct 3 ringBoard 1 (by simp [Square, ringBoard])⟩

/-! ## Boards -/

theorem square_createGrid (n : Nat) : Square n (createGrid n) := by
  refine ⟨by simp [createGrid], ?_⟩
  intro row hrow
  simp only [createGrid, List.mem_map, List.mem_range] at hrow
  obtain ⟨y, _, rfl⟩ := hrow
  simp

theorem at2_mem {α : Type} {m : List (List α)} {x y : Int} {a : α} (h : at2 m x y = some a) :
    ∃ row ∈ m, a ∈ row := by
  unfold at2 at h
  cases hr : idx m y with
  | none => simp [hr] at h
  | some row =>
    simp only [hr] at h
    exact ⟨row, (idx_lt hr).2.2, (idx_lt h).2.2⟩

theorem mem_at2 {α : Type} {m : List (List α)} {row : List α} {a : α} (hrow : row ∈ m)
    (ha : a ∈ row) : ∃ x y : Int, at2 m x y = some a := by
  obtain ⟨i, hi, rfl⟩ := List.mem_iff_getElem.mp hrow
  obtain ⟨j, hj, rfl⟩ := List.mem_iff_getElem.mp ha
  refine ⟨(j : Int), (i : Int), ?_⟩
  have h1 : idx m (i : Int) = some m[i] := by
    simp [idx, List.getElem?_eq_getElem hi]
  have h2 : idx m[i] (j : Int) = some m[i][j] := by
    simp [idx, List.getElem?_eq_getElem hj]
  simp [at2, h1, h2]

theorem at2_createGrid {n : Nat} {x y : Int} {p : Point} (h : at2 (createGrid n) x y = some p) :
    p.Owner = 0 ∧ p.Sealed = false := by
  obtain ⟨row, hrow, hp⟩ := at2_mem h
  simp only [createGrid, List.mem_map, List.mem_range] at hrow
  obtain ⟨j, _, rfl⟩ := hrow
  simp only [List.mem_map, List.mem_range] at hp
  obtain ⟨i, _, rfl⟩ := hp
  exact ⟨rfl, rfl⟩

theorem isGameOver_iff (grid : List (List Point)) :
    isGameOver grid = true ↔ ∀ (x y : Int) (p : Point), at2 grid x y = some p → p.Owner ≠ 0 := by
  unfold isGameOver
  simp only [List.all_eq_true, decide_eq_true_eq]
  constructor
  · intro h x y p hp
    obtain ⟨row, hrow, hmem⟩ := at2_mem hp
    exact h row hrow p hmem
  · intro h row hrow p hp
    obtain ⟨x, y, hxy⟩ := mem_at2 hrow hp
    exact h x y p hxy

/-! ## `ProcessMove` -/

theorem tmod_two_add_one {k : Int} (hk : k = 1 ∨ k = 2) :
    k.tmod 2 + 1 = k % 2 + 1 ∧ (k.tmod 2 + 1 = 1 ∨ k.tmod 2 + 1 = 2) := by
  rcases hk with rfl | rfl <;> decide

/-- Closed form of `ProcessMove` on a square board for a player numbered 1 or 2:
it does not panic, and the new state is determined by the result of
`detectEnclosures` on the board with the stone placed. -/
theorem ProcessMove_eq {g : Game} {n : Nat} {x y k : Int} (now : Nat)
    (hg : Square n g.State.Grid) (hin : InBoard n (x, y)) (hk : k = 1 ∨ k = 2) :
    ∃ c grid1 newGrid enclosed,
      at2 g.State.Grid x y = some c ∧
      set2 g.State.Grid x y { c with Owner := k } = some grid1 ∧ Square n grid1 ∧
      detectEnclosures grid1 k = some (newGrid, enclosed) ∧ Square n newGrid ∧
      ProcessMove g x y k now = some { g with State := { g.State with
        Grid := newGrid
        Scores := if enclosed = true then
            (if k = 1 then (calculateScore newGrid k, g.State.Scores.2)
              else (g.State.Scores.1, calculateScore newGrid k))
          else g.State.Scores
        LastMoveAt := now
        GameOver := isGameOver newGrid || g.State.GameOver
        Message := if isGameOver newGrid = true then getGameResult newGrid else g.State.Message
        CurrentTurn := if isGameOver newGrid = true ∨ enclosed = true then g.State.CurrentTurn
          else k.tmod 2 + 1 } } := by
  obtain ⟨c, hc⟩ := at2_some_of_inb hg hin.1 hin.2.1 hin.2.2.1 hin.2.2.2
  obtain ⟨grid1, h1⟩ := set2_some_of_inb hg hin.1 hin.2.1 hin.2.2.1 hin.2.2.2
    ({ c with Owner := k } : Point)
  have hsq1 := set2_square hg h1
  obtain ⟨newGrid, enclosed, hd, hsq, _, _⟩ := detectEnclosures_reach k hsq1
  refine ⟨c, grid1, newGrid, enclosed, hc, h1, hsq1, hd, hsq, ?_⟩
  unfold ProcessMove
  simp only [hc, h1, hd]
  cases enclosed with
  | false =>
    cases hover : isGameOver newGrid <;> simp
  | true =>
    rcases hk with rfl | rfl
    · cases hover : isGameOver newGrid <;> simp [setScore]
    · cases hover : isGameOver newGrid <;> simp [setScore]

/-! ## Effect of a move on the cells -/

theorem reach_traversable {grid : List (List Point)} {n : Nat} {k : Int} {c : Int × Int}
    (h : Reach grid n k c) : Traversable grid k c := by
  cases h with
  | seed _ _ ht => exact ht
  | step _ _ _ _ ht => exact ht

theorem at2_createGrid_eq {n : Nat} {x y : Int} (h : InBoard n (x, y)) :
    at2 (createGrid n) x y = some { X := x, Y := y, Owner := 0, Sealed := false } := by
  obtain ⟨hx0, hx1, hy0, hy1⟩ := h
  simp only at hx0 hx1 hy0 hy1
  have hy : y.toNat < n := by omega
  have hx : x.toNat < n := by omega
  have e1 : Int.ofNat x.toNat = x := by simp [Int.toNat_of_nonneg hx0]
  have e2 : Int.ofNat y.toNat = y := by simp [Int.toNat_of_nonneg hy0]
  simp [at2, idx, createGrid, hx0, hy0, List.getElem?_map, List.getElem?_range hy,
    List.getElem?_range hx, e1, e2, Int.toNat_of_nonneg hx0, Int.toNat_of_nonneg hy0]

theorem calculateScore_eq_count (grid : List (List Point)) (k : Int) :
    calculateScore grid k = sealedForeignCount grid k := by
  unfold calculateScore sealedForeignCount
  congr 1
  induction grid with
  | nil => simp
  | cons row rest ih =>
    rw [List.map_cons, List.sum_cons, ih, List.flatten_cons, List.filter_append,
      List.length_append, List.countP_eq_length_filter]

theorem calculateScore_pos {grid : List (List Point)} {k : Int} {x y : Int} {p : Point}
    (hp : at2 grid x y = some p) (hs : p.Sealed = true) (h0 : p.Owner ≠ 0) (hk : p.Owner ≠ k) :
    1 ≤ calculateScore grid k := by
  obtain ⟨row, hrow, hmem⟩ := at2_mem hp
  unfold calculateScore
  have h1 : 0 < row.countP
      (fun c => c.Sealed && decide (c.Owner ≠ 0) && decide (c.Owner ≠ k)) := by
    rw [List.countP_pos_iff]
    exact ⟨p, hmem, by simp [hs, h0, hk]⟩
  have h2 := List.le_sum_of_mem (List.mem_map_of_mem
    (fun row : List Point =>
      row.countP (fun c => c.Sealed && decide (c.Owner ≠ 0) && decide (c.Owner ≠ k))) hrow)
  have h3 : 1 ≤ (grid.map (fun row : List Point =>
      row.countP (fun c => c.Sealed && decide (c.Owner ≠ 0) && decide (c.Owner ≠ k)))).sum :=
    le_trans h1 h2
  exact_mod_cast h3

/-- The cells after placing a stone of player `k` at `(x, y)` and running
`detectEnclosures` for `k`: the placed stone is sealed, every other cell keeps
its owner and stays sealed if it was, and when all claimed cells were sealed
before, no enclosure is reported. -/
theorem detect_after_place {grid grid1 newGrid : List (List Point)} {n : Nat} {x y k : Int}
    {c : Point} {enclosed : Bool} (hg : Square n grid)
    (h1 : set2 grid x y { c with Owner := k } = some grid1)
    (hd : detectEnclosures grid1 k = some (newGrid, enclosed)) :
    at2 newGrid x y = some { c with Owner := k, Sealed := true } ∧
    (∀ (a b : Int) (p : Point), at2 grid a b = some p → ¬ (a = x ∧ b = y) →
      ∃ p', at2 newGrid a b = some p' ∧ p'.X = p.X ∧ p'.Y = p.Y ∧ p'.Owner = p.Owner ∧
        (p.Sealed = true → p'.Sealed = true)) ∧
    (OwnedSealed grid → enclosed = false ∧ OwnedSealed newGrid) := by
  have hsq1 := set2_square hg h1
  obtain ⟨g', e', hd', hsqn, hcell, hflag⟩ := detectEnclosures_reach k hsq1
  rw [hd] at hd'
  cases hd'
  have hplaced : at2 grid1 x y = some ({ c with Owner := k } : Point) := by
    rw [at2_set2 h1]
    simp
  have hnr : ¬ Reach grid1 n k (x, y) := by
    intro hr
    obtain ⟨p, hp, ho, _⟩ := reach_traversable hr
    rw [hplaced] at hp
    cases hp
    exact ho rfl
  have hother : ∀ (a b : Int), ¬ (a = x ∧ b = y) → at2 grid1 a b = at2 grid a b := by
    intro a b hab
    rw [at2_set2 h1, if_neg hab]
  have hA : at2 newGrid x y = some ({ c with Owner := k, Sealed := true } : Point) := by
    obtain ⟨p', hp', hx, hy, ho, hs⟩ := hcell (x, y) _ hplaced
    rw [hp']
    have hs' : p'.Sealed = true := hs.mpr (Or.inr hnr)
    cases p'
    simp only at hx hy ho hs'
    simp [hx, hy, ho, hs']
  have hB : ∀ (a b : Int) (p : Point), at2 grid a b = some p → ¬ (a = x ∧ b = y) →
      ∃ p', at2 newGrid a b = some p' ∧ p'.X = p.X ∧ p'.Y = p.Y ∧ p'.Owner = p.Owner ∧
        (p.Sealed = true → p'.Sealed = true) := by
    intro a b p hp hab
    rw [← hother a b hab] at hp
    obtain ⟨p', hp', hx, hy, ho, hs⟩ := hcell (a, b) p hp
    exact ⟨p', hp', hx, hy, ho, fun h => hs.mpr (Or.inl h)⟩
  refine ⟨hA, hB, ?_⟩
  intro hos
  constructor
  · cases he : enclosed with
    | false => rfl
    | true =>
      obtain ⟨d, p, hp, _, hs, h0, hpk⟩ := hflag.mp he
      by_cases hd1 : d.1 = x ∧ d.2 = y
      · rw [hd1.1, hd1.2, hplaced] at hp
        cases hp
        exact absurd rfl hpk
      · rw [hother d.1 d.2 hd1] at hp
        have := hos d.1 d.2 p hp h0
        rw [hs] at this
        cases this
  · intro a b p' hp' h0
    by_cases hab : a = x ∧ b = y
    · rw [hab.1, hab.2, hA] at hp'
      cases hp'
      rfl
    · have hin : InBoard n (a, b) := at2_inb hsqn hp'
      obtain ⟨p, hp⟩ := at2_some_of_inb hg hin.1 hin.2.1 hin.2.2.1 hin.2.2.2
      obtain ⟨q, hq, _, _, ho, hs⟩ := hB a b p hp hab
      rw [hp'] at hq
      cases hq
      exact hs (hos a b p hp (by rw [← ho]; exact h0))

theorem validMove_eq_true_iff {s : State} {n : Nat} (hg : Square n s.Grid) (x y k : Int) :
    validMove s x y k = some true ↔
      InBoard n (x, y) ∧ (∃ c, at2 s.Grid x y = some c ∧ c.Owner = 0) ∧ s.CurrentTurn = k := by
  unfold validMove
  rw [hg.1]
  by_cases hin : x ≥ 0 ∧ x < Int.ofNat n ∧ y ≥ 0 ∧ y < Int.ofNat n
  · rw [if_pos hin]
    obtain ⟨c, hc⟩ := at2_some_of_inb hg hin.1 hin.2.1 hin.2.2.1 hin.2.2.2
    rw [hc]
    constructor
    · intro h
      simp only [Option.some.injEq, Bool.and_eq_true, decide_eq_true_eq] at h
      exact ⟨hin, ⟨c, rfl, h.1⟩, h.2⟩
    · rintro ⟨_, ⟨c', hc', h0⟩, ht⟩
      cases hc'
      simp [h0, ht]
  · rw [if_neg hin]
    constructor
    · intro h
      cases h
    · rintro ⟨h, _⟩
      exact absurd h hin

theorem validMove_isSome {s : State} {n : Nat} (hg : Square n s.Grid) (x y k : Int) :
    (validMove s x y k).isSome = true := by
  unfold validMove
  rw [hg.1]
  by_cases hin : x ≥ 0 ∧ x < Int.ofNat n ∧ y ≥ 0 ∧ y < Int.ofNat n
  · rw [if_pos hin]
    obtain ⟨c, hc⟩ := at2_some_of_inb hg hin.1 hin.2.1 hin.2.2.1 hin.2.2.2
    rw [hc]
    rfl
  · rw [if_neg hin]
    rfl

/-- A move on a square board all of whose claimed cells are sealed: the placed
stone is sealed, no enclosure is reported and the scores stay as they were. -/
theorem ProcessMove_ownedSealed {g : Game} {n : Nat} {x y k : Int} (now : Nat)
    (hg : Square n g.State.Grid) (hin : InBoard n (x, y)) (hk : k = 1 ∨ k = 2)
    (hos : OwnedSealed g.State.Grid) :
    ∃ g', ProcessMove g x y k now = some g' ∧ Square n g'.State.Grid ∧
      OwnedSealed g'.State.Grid ∧ g'.State.Scores = g.State.Scores ∧ g'.Players = g.Players ∧
      (∃ c, at2 g.State.Grid x y = some c ∧
        at2 g'.State.Grid x y = some { c with Owner := k, Sealed := true }) ∧
      (∀ (a b : Int) (p : Point), at2 g.State.Grid a b = some p → ¬ (a = x ∧ b = y) →
        ∃ p', at2 g'.State.Grid a b = some p' ∧ p'.X = p.X ∧ p'.Y = p.Y ∧
          p'.Owner = p.Owner ∧ (p.Sealed = true → p'.Sealed = true)) ∧
      (isGameOver g'.State.Grid = false →
        g'.State.CurrentTurn = k.tmod 2 + 1 ∧ g'.State.GameOver = g.State.GameOver) := by
  obtain ⟨c, grid1, newGrid, enclosed, hc, h1, _, hd, hsq, hpm⟩ := ProcessMove_eq now hg hin hk
  obtain ⟨hA, hB, hC⟩ := detect_after_place hg h1 hd
  obtain ⟨he, hos'⟩ := hC hos
  subst he
  refine ⟨_, hpm, hsq, hos', by simp, rfl, ⟨c, hc, hA⟩, hB, ?_⟩
  intro hover
  simp only at hover
  simp [hover]

/-- The session after the first move of participant 1 at `(0, 0)`. -/
theorem first_move_state :
    validMove (NewGame 0).State 0 0 1 = some true ∧
    ∃ g1, ProcessMove (NewGame 0) 0 0 1 1 = some g1 ∧ Square 64 g1.State.Grid ∧
      OwnedSealed g1.State.Grid ∧ g1.State.Scores = (0, 0) ∧ g1.State.CurrentTurn = 2 ∧
      at2 g1.State.Grid 0 0 = some { X := 0, Y := 0, Owner := 1, Sealed := true } ∧
      ∃ p, at2 g1.State.Grid 1 0 = some p ∧ p.Owner = 0 := by
  have hsq : Square 64 (NewGame 0).State.Grid := square_createGrid 64
  have hos : OwnedSealed (NewGame 0).State.Grid := by
    intro x y p hp h0
    exact absurd (at2_createGrid hp).1 h0
  have hin : InBoard 64 ((0 : Int), (0 : Int)) := by
    refine ⟨?_, ?_, ?_, ?_⟩ <;> decide
  have hin1 : InBoard 64 ((1 : Int), (0 : Int)) := by
    refine ⟨?_, ?_, ?_, ?_⟩ <;> decide
  have h00 : at2 (NewGame 0).State.Grid 0 0 = some { X := 0, Y := 0, Owner := 0, Sealed := false } :=
    at2_createGrid_eq hin
  have h10 : at2 (NewGame 0).State.Grid 1 0 = some { X := 1, Y := 0, Owner := 0, Sealed := false } :=
    at2_createGrid_eq hin1
  have hvalid : validMove (NewGame 0).State 0 0 1 = some true :=
    (validMove_eq_true_iff hsq 0 0 _).mpr ⟨hin, ⟨_, h00, rfl⟩, rfl⟩
  obtain ⟨g', hpm, hsq', hos', hscore, _, ⟨c, hc, hc'⟩, hrest, hturn⟩ :=
    ProcessMove_ownedSealed (g := NewGame 0) (k := 1) 1 hsq hin (Or.inl rfl) hos
  rw [h00] at hc
  cases hc
  obtain ⟨p', hp', _, _, ho, _⟩ := hrest 1 0 _ h10 (by decide)
  have hover : isGameOver g'.State.Grid = false := by
    cases h : isGameOver g'.State.Grid with
    | false => rfl
    | true => exact absurd ho ((isGameOver_iff _).mp h 1 0 p' hp')
  refine ⟨hvalid, g', hpm, hsq', hos', hscore, ?_, hc', p', hp', ho⟩
  rw [(hturn hover).1]
  decide

/-- C2: in the session created by `NewGame`, the first move of participant 1 at
`(0, 0)` is accepted and leaves `board[0][0]` owned by 1 and sealed, with scores
`[0, 0]` and `current_turn = 2`: the stone just placed is sealed by the move. -/
theorem first_move_seals_placed_stone :
    ∃ g', HandleMove (NewGame 0) firstPlayer 0 0 1 = some g' ∧
      at2 g'.State.Grid 0 0 = some { X := 0, Y := 0, Owner := 1, Sealed := true } ∧
      g'.State.Scores = (0, 0) ∧ g'.State.CurrentTurn = 2 := by
  obtain ⟨hvalid, g1, hpm, _, _, hscore, hturn, h00, _⟩ := first_move_state
  refine ⟨g1, ?_, h00, hscore, hturn⟩
  unfold HandleMove
  rw [show firstPlayer.Number = 1 from rfl, hvalid]
  exact hpm

/-! ## Scores (C3) -/

/-- C3, counterexample: after participant 1 moves at `(0, 0)` on a fresh board
and participant 2 then moves at `(1, 0)`, both moves accepted, `scores[1]` is
`0` while one cell of the resulting board is sealed with an owner other than
`0` and `2`. -/
theorem score_recount_counterexample :
    validMove (NewGame 0).State 0 0 1 = some true ∧
    ∃ g1 g2, ProcessMove (NewGame 0) 0 0 1 1 = some g1 ∧
      validMove g1.State 1 0 2 = some true ∧ ProcessMove g1 1 0 2 2 = some g2 ∧
      getScore g2.State.Scores (2 - 1) ≠ some (sealedForeignCount g2.State.Grid 2) := by
  obtain ⟨hvalid, g1, hpm, hsq, hos, hscore, hturn, h00, p, hp, hp0⟩ := first_move_state
  have hin1 : InBoard 64 ((1 : Int), (0 : Int)) := by
    refine ⟨?_, ?_, ?_, ?_⟩ <;> decide
  have hvalid2 : validMove g1.State 1 0 2 = some true :=
    (validMove_eq_true_iff hsq 1 0 _).mpr ⟨hin1, ⟨p, hp, hp0⟩, hturn⟩
  obtain ⟨g2, hpm2, _, _, hscore2, _, _, hrest, _⟩ :=
    ProcessMove_ownedSealed (g := g1) (k := 2) 2 hsq hin1 (Or.inr rfl) hos
  refine ⟨hvalid, g1, g2, hpm, hvalid2, hpm2, ?_⟩
  obtain ⟨p', hp', _, _, ho, hs⟩ := hrest 0 0 _ h00 (by decide)
  have hpos : 1 ≤ calculateScore g2.State.Grid 2 :=
    calculateScore_pos hp' (hs rfl) (by rw [ho]; decide) (by rw [ho]; decide)
  rw [calculateScore_eq_count] at hpos
  rw [hscore2, hscore]
  intro h
  simp only [getScore] at h
  norm_num at h
  omega

/-- C3, amended: for every session state with a square board and every accepted
move by participant `k` in `{1, 2}`, `ProcessMove` returns a state; if the move
produced an enclosure, `scores[k-1]` of the result is the number of cells of
the resulting board that are sealed with an owner other than `0` and `k`; if it
produced none, `scores[k-1]` is what it was before the move. -/
theorem score_after_move (n : Nat) (g : Game) (x y k : Int) (now : Nat)
    (hg : Square n g.State.Grid) (hk : k = 1 ∨ k = 2)
    (hv : validMove g.State x y k = some true) :
    ∃ c grid1 newGrid enclosed g',
      at2 g.State.Grid x y = some c ∧
      set2 g.State.Grid x y { c with Owner := k } = some grid1 ∧
      detectEnclosures grid1 k = some (newGrid, enclosed) ∧
      ProcessMove g x y k now = some g' ∧ g'.State.Grid = newGrid ∧
      (enclosed = true →
        getScore g'.State.Scores (k - 1) = some (sealedForeignCount g'.State.Grid k)) ∧
      (enclosed = false →
        getScore g'.State.Scores (k - 1) = getScore g.State.Scores (k - 1)) := by
  have hin := ((validMove_eq_true_iff hg x y k).mp hv).1
  obtain ⟨c, grid1, newGrid, enclosed, hc, h1, _, hd, _, hpm⟩ := ProcessMove_eq now hg hin hk
  refine ⟨c, grid1, newGrid, enclosed, _, hc, h1, hd, hpm, rfl, ?_, ?_⟩
  · intro he
    subst he
    rw [← calculateScore_eq_count]
    rcases hk with rfl | rfl <;> simp [getScore]
  · intro he
    subst he
    simp

/-- Witness for C3 (amended): the theorem applied to the move of participant 1
at `(1, 2)` in `ringGame`. -/
theorem score_after_move_witness :
    Square 3 ringGame.State.Grid ∧ ((1 : Int) = 1 ∨ (1 : Int) = 2) ∧
    validMove ringGame.State 1 2 1 = some true ∧
    ∃ c grid1 newGrid enclosed g',
      at2 ringGame.State.Grid 1 2 = some c ∧
      set2 ringGame.State.Grid 1 2 { c with Owner := 1 } = some grid1 ∧
      detectEnclosures grid1 1 = some (newGrid, enclosed) ∧
      ProcessMove ringGame 1 2 1 5 = some g' ∧ g'.State.Grid = newGrid ∧
      (enclosed = true →
        getScore g'.State.Scores (1 - 1) = some (sealedForeignCount g'.State.Grid 1)) ∧
      (enclosed = false →
        getScore g'.State.Scores (1 - 1) = getScore ringGame.State.Scores (1 - 1)) :=
  ⟨by simp [Square, ringGame], Or.inl rfl, by decide,
    score_after_move 3 ringGame 1 2 1 5 (by simp [Square, ringGame]) (Or.inl rfl) (by decide)⟩

/-! ## Move validation on reachable states (C4) -/

theorem sessionInv_NewGame (t : Nat) : SessionInv (NewGame t) := by
  refine ⟨square_createGrid 64, Or.inl rfl, ?_⟩
  intro h
  cases h

/-- Entered with the lock free, `HandleReady` panics at the write of the flag
or blocks in `AllPlayersReady` with the flag written. -/
theorem HandleReady_free (g : Game) (p : Player) :
    (setIdx g.State.PlayersReady (p.Number - 1) true = none ∧
      HandleReady Mutex.free g p = Outcome.panicked) ∨
    ∃ ready, setIdx g.State.PlayersReady (p.Number - 1) true = some ready ∧
      HandleReady Mutex.free g p
        = Outcome.blocked Mutex.locked { g with State := { g.State with PlayersReady := ready } } := by
  cases hs : setIdx g.State.PlayersReady (p.Number - 1) true with
  | none =>
    left
    refine ⟨rfl, ?_⟩
    simp [HandleReady, Mutex.Lock, hs]
  | some ready =>
    right
    refine ⟨ready, rfl, ?_⟩
    simp [HandleReady, Mutex.Lock, hs, AllPlayersReady, Mutex.RLock]

/-- The event `ready` leaves the session as it was or writes `PlayersReady`,
and nothing else. -/
theorem step_ready (g : Game) (p : Player) :
    step g (Op.ready p) = g ∨
    ∃ ready, step g (Op.ready p) = { g with State := { g.State with PlayersReady := ready } } := by
  have hstep : step g (Op.ready p) = (HandleReady Mutex.free g p).session g := rfl
  rcases HandleReady_free g p with ⟨_, h⟩ | ⟨ready, _, h⟩
  · left
    rw [hstep, h]
    rfl
  · right
    refine ⟨ready, ?_⟩
    rw [hstep, h]
    rfl

theorem sessionInv_ProcessMove {g g' : Game} {x y k : Int} {now : Nat} (hg : SessionInv g)
    (hv : validMove g.State x y k = some true) (h : ProcessMove g x y k now = some g') :
    SessionInv g' := by
  obtain ⟨hin, ⟨c0, hc0, hown⟩, hturn⟩ := (validMove_eq_true_iff hg.1 x y k).mp hv
  have hk : k = 1 ∨ k = 2 := by
    rw [← hturn]
    exact hg.2.1
  obtain ⟨c, grid1, newGrid, enclosed, _, _, _, _, hsq, hpm⟩ := ProcessMove_eq now hg.1 hin hk
  rw [hpm] at h
  cases h
  refine ⟨hsq, ?_, ?_⟩
  · show (if isGameOver newGrid = true ∨ enclosed = true then g.State.CurrentTurn
      else k.tmod 2 + 1) = 1 ∨ (if isGameOver newGrid = true ∨ enclosed = true then
      g.State.CurrentTurn else k.tmod 2 + 1) = 2
    split
    · exact hg.2.1
    · exact (tmod_two_add_one hk).2
  · show (isGameOver newGrid || g.State.GameOver) = true → isGameOver newGrid = true
    intro h
    rcases Bool.or_eq_true _ _ ▸ h with h | h
    · exact h
    · exact absurd hown ((isGameOver_iff _).mp (hg.2.2 h) x y c0 hc0)

theorem sessionInv_step {g : Game} (hg : SessionInv g) (op : Op) : SessionInv (step g op) := by
  cases op with
  | add p =>
    show SessionInv (AddPlayer g p).1
    unfold AddPlayer
    split
    · exact hg
    · exact hg
  | remove id => exact hg
  | disconnect p =>
    show SessionInv (HandleDisconnect g p)
    unfold HandleDisconnect
    simp only
    split
    · exact hg
    · exact hg
  | ready p =>
    rcases step_ready g p with h | ⟨ready, h⟩
    · rw [h]
      exact hg
    · rw [h]
      exact hg
  | move p x y now =>
    show SessionInv ((HandleMove g p x y now).getD g)
    cases h : HandleMove g p x y now with
    | none => exact hg
    | some g' =>
      unfold HandleMove at h
      cases hv : validMove g.State x y p.Number with
      | none => simp [hv] at h
      | some b =>
        cases b with
        | false =>
          simp only [hv] at h
          cases h
          exact hg
        | true =>
          simp only [hv] at h
          exact sessionInv_ProcessMove hg hv h
  | reset => exact sessionInv_NewGame 0

theorem sessionInv_run (ops : List Op) : ∀ g : Game, SessionInv g → SessionInv (run g ops) := by
  induction ops with
  | nil =>
    intro g hg
    exact hg
  | cons op rest ih =>
    intro g hg
    exact ih (step g op) (sessionInv_step hg op)

/-- C4: in every session state reached from a new session by any sequence of
events (accepted or rejected moves, ready, reset, and also admissions and
removals), `validMove` does not panic, and for all integers `x`, `y` and every
participant number `n` it returns true iff the session is not `game_over`,
`n` is the current turn, `0 ≤ x, y < GRID_SIZE` and `board[y][x].owner = 0`; in
particular it returns false whenever `game_over` is true. -/
theorem validMove_iff_of_reachable (t : Nat) (ops : List Op) (x y n : Int) :
    (validMove (run (NewGame t) ops).State x y n).isSome = true ∧
    (validMove (run (NewGame t) ops).State x y n = some true ↔
      (run (NewGame t) ops).State.GameOver = false ∧
      n = (run (NewGame t) ops).State.CurrentTurn ∧
      0 ≤ x ∧ x < (GRID_SIZE : Int) ∧ 0 ≤ y ∧ y < (GRID_SIZE : Int) ∧
      ∃ c, at2 (run (NewGame t) ops).State.Grid x y = some c ∧ c.Owner = 0) ∧
    ((run (NewGame t) ops).State.GameOver = true →
      validMove (run (NewGame t) ops).State x y n = some false) := by
  have hinv := sessionInv_run ops (NewGame t) (sessionInv_NewGame t)
  generalize run (NewGame t) ops = g at hinv
  have hiff := validMove_eq_true_iff hinv.1 x y n
  have hsome := validMove_isSome hinv.1 x y n
  have hfull : g.State.GameOver = true → validMove g.State x y n ≠ some true := by
    intro hover hv
    obtain ⟨_, ⟨c, hc, hown⟩, _⟩ := hiff.mp hv
    exact absurd hown ((isGameOver_iff _).mp (hinv.2.2 hover) x y c hc)
  refine ⟨hsome, ?_, ?_⟩
  · rw [hiff]
    constructor
    · rintro ⟨hin, hc, ht⟩
      refine ⟨?_, ht.symm, hin.1, hin.2.1, hin.2.2.1, hin.2.2.2, hc⟩
      cases hgo : g.State.GameOver with
      | false => rfl
      | true => exact absurd (hiff.mpr ⟨hin, hc, ht⟩) (hfull hgo)
    · rintro ⟨_, ht, h1, h2, h3, h4, hc⟩
      exact ⟨⟨h1, h2, h3, h4⟩, hc, ht.symm⟩
  · intro hover
    cases hv : validMove g.State x y n with
    | none => simp [hv] at hsome
    | some b =>
      cases b with
      | false => rfl
      | true => exact absurd hv (hfull hover)

theorem HandleMove_runs {g : Game} (hg : SessionInv g) (p : Player) (x y : Int) (now : Nat) :
    (HandleMove g p x y now).isSome = true := by
  unfold HandleMove
  cases hv : validMove g.State x y p.Number with
  | none =>
    have := validMove_isSome hg.1 x y p.Number
    simp [hv] at this
  | some b =>
    cases b with
    | false => rfl
    | true =>
      obtain ⟨hin, _, hturn⟩ := (validMove_eq_true_iff hg.1 x y p.Number).mp hv
      have hk : p.Number = 1 ∨ p.Number = 2 := by
        rw [← hturn]
        exact hg.2.1
      obtain ⟨_, _, _, _, _, _, _, _, _, hpm⟩ := ProcessMove_eq (g := g) now hg.1 hin hk
      simp only [hpm]
      rfl

/-! ## Turn advancement (C5) -/

/-- C5: on the 2 × 2 board with one unclaimed cell the move of participant 1
at `(1, 1)` is accepted, claims the last cell and produces no enclosure, and
`current_turn` afterwards is still `1`, not `(1 % 2) + 1 = 2`: `ProcessMove`
passes the turn only in the branch of a move that does not end the game. -/
theorem turn_flip_counterexample :
    validMove lastCellGame.State 1 1 1 = some true ∧
    ∃ c grid1 newGrid g',
      at2 lastCellGame.State.Grid 1 1 = some c ∧
      set2 lastCellGame.State.Grid 1 1 { c with Owner := 1 } = some grid1 ∧
      detectEnclosures grid1 1 = some (newGrid, false) ∧
      ProcessMove lastCellGame 1 1 1 7 = some g' ∧
      g'.State.CurrentTurn ≠ (1 : Int) % 2 + 1 := by
  refine ⟨by decide, _, _, _, _, rfl, rfl, rfl, rfl, ?_⟩
  decide

/-- The turn as `ProcessMove` leaves it, for every session state with a square
board and every accepted move by participant `k` in `{1, 2}`: when the move
leaves an unclaimed cell, `current_turn` afterwards is `k` if the move produced
an enclosure and `(k % 2) + 1` otherwise; when the move claims the last
unclaimed cell, `ProcessMove` does not write `current_turn`, which stays `k`. -/
theorem turn_after_move (n : Nat) (g : Game) (x y k : Int) (now : Nat)
    (hg : Square n g.State.Grid) (hk : k = 1 ∨ k = 2)
    (hv : validMove g.State x y k = some true) :
    ∃ c grid1 newGrid enclosed g',
      at2 g.State.Grid x y = some c ∧
      set2 g.State.Grid x y { c with Owner := k } = some grid1 ∧
      detectEnclosures grid1 k = some (newGrid, enclosed) ∧
      ProcessMove g x y k now = some g' ∧
      (isGameOver g'.State.Grid = false →
        (enclosed = true → g'.State.CurrentTurn = k) ∧
        (enclosed = false → g'.State.CurrentTurn = k % 2 + 1)) ∧
      (isGameOver g'.State.Grid = true → g'.State.CurrentTurn = k) := by
  obtain ⟨hin, _, hturn⟩ := (validMove_eq_true_iff hg x y k).mp hv
  obtain ⟨c, grid1, newGrid, enclosed, hc, h1, _, hd, _, hpm⟩ := ProcessMove_eq now hg hin hk
  refine ⟨c, grid1, newGrid, enclosed, _, hc, h1, hd, hpm, ?_, ?_⟩
  · intro hover
    simp only at hover
    constructor
    · intro he
      simp [hover, he, hturn]
    · intro he
      simp [hover, he, (tmod_two_add_one hk).1]
  · intro hover
    simp only at hover
    simp [hover, hturn]

/-- The theorem `turn_after_move` applied to the move of participant 1 at
`(1, 2)` in `ringGame`. -/
theorem turn_after_move_witness :
    Square 3 ringGame.State.Grid ∧ ((1 : Int) = 1 ∨ (1 : Int) = 2) ∧
    validMove ringGame.State 1 2 1 = some true ∧
    ∃ c grid1 newGrid enclosed g',
      at2 ringGame.State.Grid 1 2 = some c ∧
      set2 ringGame.State.Grid 1 2 { c with Owner := 1 } = some grid1 ∧
      detectEnclosures grid1 1 = some (newGrid, enclosed) ∧
      ProcessMove ringGame 1 2 1 5 = some g' ∧
      (isGameOver g'.State.Grid = false →
        (enclosed = true → g'.State.CurrentTurn = 1) ∧
        (enclosed = false → g'.State.CurrentTurn = (1 : Int) % 2 + 1)) ∧
      (isGameOver g'.State.Grid = true → g'.State.CurrentTurn = 1) :=
  ⟨by simp [Square, ringGame], Or.inl rfl, by decide,
    turn_after_move 3 ringGame 1 2 1 5 (by simp [Square, ringGame]) (Or.inl rfl) (by decide)⟩

/-! ## Hub capacity (C6) -/

/-- C6: a hub created with `maxGames = 1` admits two connections into one
session; a third connection arriving one second later is not refused:
`FindOrCreateGame` registers a second session, so the registry holds two
sessions, more than `maxGames`, and the third connection is seated as
participant 1 of the new session. -/
theorem hub_capacity_exceeded :
    ∃ h1 a h2 b h3 c,
      InitializePlayer (NewHub 1) connA 0
        = some (h1, a, Outbound.connection "game-0" "player-a" 1) ∧
      InitializePlayer h1 connB 0 = some (h2, b, Outbound.connection "game-0" "player-b" 2) ∧
      h2.games.length = 1 ∧ h2.games.all IsFull = true ∧
      InitializePlayer h2 connC 1 = some (h3, c, Outbound.connection "game-1" "player-c" 1) ∧
      h3.games.length = 2 ∧ h3.maxGames = 1 ∧ (FindOrCreateGame h2 1).2.isSome = true := by
  refine ⟨_, _, _, _, _, _, rfl, rfl, ?_, ?_, rfl, ?_, ?_, ?_⟩ <;> decide

/-! ## Seats and ready flags (C7 to C10) -/

/-- C7: after two admissions, the disconnect of participant 1 and a third
admission, all with distinct ids, the two seated participants both carry
number 2. -/
theorem seat_collision_after_disconnect :
    ∃ g1 a g2 b g4 c,
      AddPlayer (NewGame 0) connA = (g1, a, true) ∧ AddPlayer g1 connB = (g2, b, true) ∧
      AddPlayer (HandleDisconnect g2 a) connC = (g4, c, true) ∧
      g4.Players.map (fun p => (p.ID, p.Number)) = [("player-b", 2), ("player-c", 2)] := by
  refine ⟨_, _, _, _, _, _, rfl, rfl, rfl, ?_⟩
  decide

/-- C8: two participants are seated and both send ready. The call for
participant 1 writes its flag and then waits in `AllPlayersReady`, whose `RLock`
is on the mutex that `HandleReady` itself holds; the call for participant 2
waits at `Lock` with the session untouched. The second flag is never written,
`Start` is never called and the message is not "Game started!". No call of
`HandleReady`, on any session, returns. -/
theorem ready_never_starts :
    ∃ g1 a g2 b g3,
      AddPlayer (NewGame 0) connA = (g1, a, true) ∧ AddPlayer g1 connB = (g2, b, true) ∧
      g2.Players.length = 2 ∧ a.Number = 1 ∧ b.Number = 2 ∧
      HandleReady Mutex.free g2 a = Outcome.blocked Mutex.locked g3 ∧
      g3.State.PlayersReady = [true, false] ∧
      HandleReady Mutex.locked g3 b = Outcome.blocked Mutex.locked g3 ∧
      g3.State.Message ≠ "Game started!" ∧
      ∀ (mu : Mutex) (g : Game) (p : Player) (g' : Game),
        HandleReady mu g p ≠ Outcome.returned g' := by
  refine ⟨_, _, _, _, _, rfl, rfl, ?_, ?_, ?_, rfl, ?_, ?_, ?_, ?_⟩
  · decide
  · decide
  · decide
  · decide
  · decide
  · decide
  · intro mu g p g'
    cases mu with
    | free =>
      rcases HandleReady_free g p with ⟨_, h⟩ | ⟨ready, _, h⟩ <;> rw [h] <;> exact fun e => by cases e
    | locked => simp [HandleReady, Mutex.Lock]
    | rlocked n => simp [HandleReady, Mutex.Lock]

/-- C9: after an admission and a reset the participant is still seated with
number 1, `players_ready` is empty, index `number - 1` is out of range and
`HandleReady` by that participant panics. -/
theorem ready_after_reset_panics :
    ∃ g1 a,
      AddPlayer (NewGame 0) connA = (g1, a, true) ∧ a ∈ (HandleReset g1).Players ∧
      a.Number = 1 ∧ (HandleReset g1).State.PlayersReady = [] ∧
      idx (HandleReset g1).State.PlayersReady (a.Number - 1) = none ∧
      HandleReady Mutex.free (HandleReset g1) a = Outcome.panicked := by
  refine ⟨_, _, rfl, ?_, ?_, ?_, ?_, ?_⟩ <;> decide

/-- C10: after two admissions, the disconnect of participant 1 and a third,
successful admission, the session has two participants and three ready flags. -/
theorem ready_flags_outgrow_seats :
    ∃ g1 a g2 b g4 c,
      AddPlayer (NewGame 0) connA = (g1, a, true) ∧ AddPlayer g1 connB = (g2, b, true) ∧
      AddPlayer (HandleDisconnect g2 a) connC = (g4, c, true) ∧
      g4.Players.length = 2 ∧ g4.State.PlayersReady.length = 3 := by
  refine ⟨_, _, _, _, _, _, rfl, rfl, rfl, ?_, ?_⟩ <;> decide

/-! ## Simple enclosure on a 4 × 4 board (C11) -/

/-- C11: on the 4 × 4 board of `enclosureGame` the move of participant 1 at
`(1, 2)` is accepted and completes the ring around `(1, 1)`: in the resulting
state cell `(1, 1)` is sealed, `scores[0] = 1` and `current_turn` is still `1`;
so every following move of participant 2 is rejected and every following move
of participant 1 on an unclaimed cell is accepted. -/
theorem simple_enclosure :
    validMove enclosureGame.State 1 2 firstPlayer.Number = some true ∧
    ∃ g', HandleMove enclosureGame firstPlayer 1 2 9 = some g' ∧ g' = enclosureAfter ∧
      (at2 g'.State.Grid 1 1).map (fun c => (c.Owner, c.Sealed)) = some (2, true) ∧
      getScore g'.State.Scores 0 = some 1 ∧ g'.State.CurrentTurn = 1 ∧
      (∀ x y : Int, validMove g'.State x y secondPlayer.Number = some false) ∧
      (∀ (x y : Int) (c : Point), at2 g'.State.Grid x y = some c → c.Owner = 0 →
        validMove g'.State x y firstPlayer.Number = some true) := by
  have hsq : Square 4 enclosureAfter.State.Grid := by simp [Square, enclosureAfter]
  refine ⟨by decide, enclosureAfter, by decide, rfl, by decide, by decide, by decide, ?_, ?_⟩
  · intro x y
    have hsome := validMove_isSome hsq x y secondPlayer.Number
    cases hv : validMove enclosureAfter.State x y secondPlayer.Number with
    | none => simp [hv] at hsome
    | some b =>
      cases b with
      | false => rfl
      | true =>
        have := ((validMove_eq_true_iff hsq x y _).mp hv).2.2
        exact absurd this (by decide)
  · intro x y c hc h0
    exact (validMove_eq_true_iff hsq x y _).mpr ⟨at2_inb hsq hc, ⟨c, hc, h0⟩, rfl⟩

/-! ## Terminal detection (C12) -/

/-- Every state returned by `ProcessMove` on a square board, for any player
number, has the closed form of `ProcessMove_eq`, with some pair of scores that
is the old pair when no enclosure was produced. -/
theorem ProcessMove_of_some {g g' : Game} {n : Nat} {x y k : Int} {now : Nat}
    (hg : Square n g.State.Grid) (hin : InBoard n (x, y))
    (h : ProcessMove g x y k now = some g') :
    ∃ c grid1 newGrid enclosed scores,
      at2 g.State.Grid x y = some c ∧
      set2 g.State.Grid x y { c with Owner := k } = some grid1 ∧
      detectEnclosures grid1 k = some (newGrid, enclosed) ∧ Square n newGrid ∧
      (enclosed = false → scores = g.State.Scores) ∧
      g' = { g with State := { g.State with
        Grid := newGrid
        Scores := scores
        LastMoveAt := now
        GameOver := isGameOver newGrid || g.State.GameOver
        Message := if isGameOver newGrid = true then getGameResult newGrid else g.State.Message
        CurrentTurn := if isGameOver newGrid = true ∨ enclosed = true then g.State.CurrentTurn
          else k.tmod 2 + 1 } } := by
  obtain ⟨c, hc⟩ := at2_some_of_inb hg hin.1 hin.2.1 hin.2.2.1 hin.2.2.2
  obtain ⟨grid1, h1⟩ := set2_some_of_inb hg hin.1 hin.2.1 hin.2.2.1 hin.2.2.2
    ({ c with Owner := k } : Point)
  have hsq1 := set2_square hg h1
  obtain ⟨newGrid, enclosed, hd, hsq, _, _⟩ := detectEnclosures_reach k hsq1
  unfold ProcessMove at h
  simp only [hc, h1, hd] at h
  cases enclosed with
  | false =>
    refine ⟨c, grid1, newGrid, false, g.State.Scores, hc, h1, hd, hsq, fun _ => rfl, ?_⟩
    cases hover : isGameOver newGrid <;> simp [hover] at h <;> simp [← h]
  | true =>
    cases hs : setScore g.State.Scores (k - 1) (calculateScore newGrid k) with
    | none => simp [hs] at h
    | some scores =>
      refine ⟨c, grid1, newGrid, true, scores, hc, h1, hd, hsq, (fun e => by cases e), ?_⟩
      cases hover : isGameOver newGrid <;> simp [hs, hover] at h <;> simp [← h]

/-- C12: for every state with a square board and `game_over = false` and every
accepted move, `ProcessMove` returns a state when the mover is numbered 1 or 2,
and in any state it returns `game_over` is true iff no cell of the resulting
board has `owner = 0`; a move that fills the last unclaimed cell therefore sets
`game_over` in the same commit, enclosure or not. -/
theorem terminal_detection (n : Nat) (g : Game) (x y k : Int) (now : Nat)
    (hg : Square n g.State.Grid) (hgo : g.State.GameOver = false)
    (hv : validMove g.State x y k = some true) :
    (k = 1 ∨ k = 2 → ∃ g', ProcessMove g x y k now = some g') ∧
    ∀ g', ProcessMove g x y k now = some g' →
      (g'.State.GameOver = true ↔
        ∀ (a b : Int) (p : Point), at2 g'.State.Grid a b = some p → p.Owner ≠ 0) := by
  have hin := ((validMove_eq_true_iff hg x y k).mp hv).1
  constructor
  · intro hk
    obtain ⟨_, _, _, _, _, _, _, _, _, hpm⟩ := ProcessMove_eq (g := g) now hg hin hk
    exact ⟨_, hpm⟩
  · intro g' h
    obtain ⟨c, grid1, newGrid, enclosed, scores, _, _, _, _, _, rfl⟩ := ProcessMove_of_some hg hin h
    rw [← isGameOver_iff]
    simp [hgo]

/-- Witness for C12: the theorem applied to the move of participant 1 at
`(1, 1)`, the last unclaimed cell of `lastCellGame`. -/
theorem terminal_detection_witness :
    Square 2 lastCellGame.State.Grid ∧ lastCellGame.State.GameOver = false ∧
    validMove lastCellGame.State 1 1 1 = some true ∧
    ((1 : Int) = 1 ∨ (1 : Int) = 2 → ∃ g', ProcessMove lastCellGame 1 1 1 7 = some g') ∧
    ∀ g', ProcessMove lastCellGame 1 1 1 7 = some g' →
      (g'.State.GameOver = true ↔
        ∀ (a b : Int) (p : Point), at2 g'.State.Grid a b = some p → p.Owner ≠ 0) :=
  ⟨by simp [Square, lastCellGame], rfl, by decide,
    terminal_detection 2 lastCellGame 1 1 1 7 (by simp [Square, lastCellGame]) rfl (by decide)⟩

/-! ## Winner determination (C13) -/

theorem sum_countP_eq_length_filter (q : Point → Bool) (grid : List (List Point)) :
    (grid.map (fun row => row.countP q)).sum = (grid.flatten.filter q).length := by
  induction grid with
  | nil => simp
  | cons row rest ih =>
    rw [List.map_cons, List.sum_cons, ih, List.flatten_cons, List.filter_append,
      List.length_append, List.countP_eq_length_filter]

theorem getGameResult_eq (grid : List (List Point)) :
    getGameResult grid =
      if ownedCount grid 1 > ownedCount grid 2 then "Player 1 Wins!"
      else if ownedCount grid 2 > ownedCount grid 1 then "Player 2 Wins!"
      else "It's a Tie!" := by
  unfold getGameResult ownedCount
  simp only [sum_countP_eq_length_filter]

/-- C13: for every grid, `getGameResult` returns "Player 1 Wins!" iff more
cells are owned by 1 than by 2, "Player 2 Wins!" iff fewer, and "It's a Tie!"
iff the two counts are equal; an accepted move after which no cell is unclaimed
sets `game_over` and sets `message` to that result; and on the 2 × 2 board of
`winGame` the move of participant 1 that fills the last cell commits with
`game_over = true` and `message = "Player 1 Wins!"`, the board being claimed
3 to 1. -/
theorem winner_determination (grid : List (List Point)) (n : Nat) (g : Game) (x y k : Int)
    (now : Nat) (hg : Square n g.State.Grid) (hk : k = 1 ∨ k = 2)
    (hv : validMove g.State x y k = some true) :
    (getGameResult grid = "Player 1 Wins!" ↔ ownedCount grid 1 > ownedCount grid 2) ∧
    (getGameResult grid = "Player 2 Wins!" ↔ ownedCount grid 1 < ownedCount grid 2) ∧
    (getGameResult grid = "It's a Tie!" ↔ ownedCount grid 1 = ownedCount grid 2) ∧
    (∃ g', ProcessMove g x y k now = some g' ∧
      (isGameOver g'.State.Grid = true →
        g'.State.GameOver = true ∧ g'.State.Message = getGameResult g'.State.Grid)) ∧
    (∃ g', HandleMove winGame firstPlayer 1 1 9 = some g' ∧ g'.State.GameOver = true ∧
      g'.State.Message = "Player 1 Wins!" ∧
      ownedCount g'.State.Grid 1 = 3 ∧ ownedCount g'.State.Grid 2 = 1) := by
  have h12 : ("Player 1 Wins!" : String) ≠ "Player 2 Wins!" := by decide
  have h1t : ("Player 1 Wins!" : String) ≠ "It's a Tie!" := by decide
  have h2t : ("Player 2 Wins!" : String) ≠ "It's a Tie!" := by decide
  refine ⟨?_, ?_, ?_, ?_, ?_⟩
  · rw [getGameResult_eq]
    split
    · simp [*]
    · split
      · simp [h12.symm]
        omega
      · simp [h1t.symm]
        omega
  · rw [getGameResult_eq]
    split
    · simp [h12]
      omega
    · split
      · simp
        omega
      · simp [h2t.symm]
        omega
  · rw [getGameResult_eq]
    split
    · simp [h1t]
      omega
    · split
      · simp [h2t]
        omega
      · simp
        omega
  · have hin := ((validMove_eq_true_iff hg x y k).mp hv).1
    obtain ⟨_, _, newGrid, _, _, _, _, _, _, hpm⟩ := ProcessMove_eq (g := g) now hg hin hk
    refine ⟨_, hpm, ?_⟩
    intro hover
    simp only at hover
    simp [hover]
  · refine ⟨_, rfl, ?_, ?_, ?_, ?_⟩ <;> decide

/-- Witness for C13: the theorem applied to the board of `winGame` and the move
of participant 1 at `(1, 1)`. -/
theorem winner_determination_witness :
    Square 2 winGame.State.Grid ∧ ((1 : Int) = 1 ∨ (1 : Int) = 2) ∧
    validMove winGame.State 1 1 1 = some true ∧
    (getGameResult winGame.State.Grid = "Player 1 Wins!" ↔
      ownedCount winGame.State.Grid 1 > ownedCount winGame.State.Grid 2) ∧
    (getGameResult winGame.State.Grid = "Player 2 Wins!" ↔
      ownedCount winGame.State.Grid 1 < ownedCount winGame.State.Grid 2) ∧
    (getGameResult winGame.State.Grid = "It's a Tie!" ↔
      ownedCount winGame.State.Grid 1 = ownedCount winGame.State.Grid 2) ∧
    (∃ g', ProcessMove winGame 1 1 1 9 = some g' ∧
      (isGameOver g'.State.Grid = true →
        g'.State.GameOver = true ∧ g'.State.Message = getGameResult g'.State.Grid)) ∧
    (∃ g', HandleMove winGame firstPlayer 1 1 9 = some g' ∧ g'.State.GameOver = true ∧
      g'.State.Message = "Player 1 Wins!" ∧
      ownedCount g'.State.Grid 1 = 3 ∧ ownedCount g'.State.Grid 2 = 1) :=
  ⟨by simp [Square, winGame], Or.inl rfl, by decide,
    winner_determination winGame.State.Grid 2 winGame 1 1 1 9 (by simp [Square, winGame])
      (Or.inl rfl) (by decide)⟩

/-! ## Monotonicity of seals and owners (C15, C16) -/

/-- The cells of any state returned by `ProcessMove` on a square board: the
played cell gets owner `k` and is sealed, every other cell keeps its owner and
stays sealed if it was; coordinates are kept. -/
theorem ProcessMove_cells {g g' : Game} {n : Nat} {x y k : Int} {now : Nat}
    (hg : Square n g.State.Grid) (hin : InBoard n (x, y))
    (h : ProcessMove g x y k now = some g') :
    Square n g'.State.Grid ∧
    (∃ c c', at2 g.State.Grid x y = some c ∧ at2 g'.State.Grid x y = some c' ∧
      c'.X = c.X ∧ c'.Y = c.Y ∧ c'.Owner = k ∧ c'.Sealed = true) ∧
    (∀ (a b : Int) (p : Point), at2 g.State.Grid a b = some p → ¬ (a = x ∧ b = y) →
      ∃ p', at2 g'.State.Grid a b = some p' ∧ p'.X = p.X ∧ p'.Y = p.Y ∧
        p'.Owner = p.Owner ∧ (p.Sealed = true → p'.Sealed = true)) := by
  obtain ⟨c, grid1, newGrid, enclosed, scores, hc, h1, hd, hsq, _, rfl⟩ :=
    ProcessMove_of_some hg hin h
  obtain ⟨hA, hB, _⟩ := detect_after_place hg h1 hd
  exact ⟨hsq, ⟨c, _, hc, hA, rfl, rfl, rfl, rfl⟩, hB⟩

theorem detectEnclosures_sealed_mono {grid : List (List Point)} {n : Nat} (k : Int)
    (hg : Square n grid) :
    ∃ newGrid enclosed, detectEnclosures grid k = some (newGrid, enclosed) ∧
      ∀ (a b : Int) (p : Point), at2 grid a b = some p → p.Sealed = true →
        ∃ p', at2 newGrid a b = some p' ∧ p'.Sealed = true := by
  obtain ⟨newGrid, enclosed, hd, _, hcell, _⟩ := detectEnclosures_reach k hg
  refine ⟨newGrid, enclosed, hd, ?_⟩
  intro a b p hp hs
  obtain ⟨p', hp', _, _, _, h5⟩ := hcell (a, b) p hp
  exact ⟨p', hp', h5.mpr (Or.inl hs)⟩

/-- One event other than a reset, on a square board: the board stays square,
every cell stays sealed if it was, and every claimed cell keeps its owner. -/
theorem step_cells {g : Game} {n : Nat} (hg : Square n g.State.Grid) (op : Op)
    (hop : op ≠ Op.reset) :
    Square n (step g op).State.Grid ∧
    ∀ (a b : Int) (p : Point), at2 g.State.Grid a b = some p →
      ∃ p', at2 (step g op).State.Grid a b = some p' ∧ p'.X = p.X ∧ p'.Y = p.Y ∧
        (p.Sealed = true → p'.Sealed = true) ∧ (p.Owner ≠ 0 → p'.Owner = p.Owner) := by
  have hsame : ∀ g' : Game, g'.State.Grid = g.State.Grid →
      Square n g'.State.Grid ∧
      ∀ (a b : Int) (p : Point), at2 g.State.Grid a b = some p →
        ∃ p', at2 g'.State.Grid a b = some p' ∧ p'.X = p.X ∧ p'.Y = p.Y ∧
          (p.Sealed = true → p'.Sealed = true) ∧ (p.Owner ≠ 0 → p'.Owner = p.Owner) := by
    intro g' e
    rw [e]
    exact ⟨hg, fun a b p hp => ⟨p, hp, rfl, rfl, id, fun _ => rfl⟩⟩
  cases op with
  | add p =>
    apply hsame
    show (AddPlayer g p).1.State.Grid = g.State.Grid
    unfold AddPlayer
    split <;> rfl
  | remove id => exact hsame _ rfl
  | disconnect p =>
    apply hsame
    show (HandleDisconnect g p).State.Grid = g.State.Grid
    unfold HandleDisconnect
    simp only
    split <;> rfl
  | ready p =>
    apply hsame
    rcases step_ready g p with h | ⟨ready, h⟩
    · rw [h]
    · rw [h]
  | move p x y now =>
    have hstep : step g (Op.move p x y now) = (HandleMove g p x y now).getD g := rfl
    rw [hstep]
    cases hm : HandleMove g p x y now with
    | none => exact hsame _ rfl
    | some g' =>
      show Square n g'.State.Grid ∧ _
      unfold HandleMove at hm
      cases hv : validMove g.State x y p.Number with
      | none => simp [hv] at hm
      | some v =>
        cases v with
        | false =>
          simp only [hv] at hm
          cases hm
          exact hsame _ rfl
        | true =>
          simp only [hv] at hm
          obtain ⟨hin, ⟨c0, hc0, hown⟩, _⟩ := (validMove_eq_true_iff hg x y p.Number).mp hv
          obtain ⟨hsq, ⟨c, c', hc, hc', hx, hy, _, hs⟩, hrest⟩ := ProcessMove_cells hg hin hm
          refine ⟨hsq, ?_⟩
          intro a b q hq
          show ∃ p', at2 g'.State.Grid a b = some p' ∧ _
          by_cases hab : a = x ∧ b = y
          · rw [hab.1, hab.2] at hq ⊢
            rw [hc] at hq hc0
            cases hq
            cases hc0
            exact ⟨c', hc', hx, hy, fun _ => hs, fun h => absurd hown h⟩
          · obtain ⟨q', hq', h1, h2, h3, h4⟩ := hrest a b q hq hab
            exact ⟨q', hq', h1, h2, h4, fun _ => h3⟩
  | reset => exact absurd rfl hop

theorem run_cells {n : Nat} (ops : List Op) (hops : ∀ op ∈ ops, op ≠ Op.reset) :
    ∀ g : Game, Square n g.State.Grid →
      Square n (run g ops).State.Grid ∧
      ∀ (a b : Int) (p : Point), at2 g.State.Grid a b = some p →
        ∃ p', at2 (run g ops).State.Grid a b = some p' ∧ p'.X = p.X ∧ p'.Y = p.Y ∧
          (p.Sealed = true → p'.Sealed = true) ∧ (p.Owner ≠ 0 → p'.Owner = p.Owner) := by
  induction ops with
  | nil =>
    intro g hg
    exact ⟨hg, fun a b p hp => ⟨p, hp, rfl, rfl, id, fun _ => rfl⟩⟩
  | cons op rest ih =>
    intro g hg
    obtain ⟨hsq1, h1⟩ := step_cells hg op (hops op (List.mem_cons_self _ _))
    obtain ⟨hsq2, h2⟩ := ih (fun o ho => hops o (List.mem_cons_of_mem _ ho)) (step g op) hsq1
    refine ⟨hsq2, ?_⟩
    intro a b p hp
    obtain ⟨p1, hp1, hx1, hy1, hs1, ho1⟩ := h1 a b p hp
    obtain ⟨p2, hp2, hx2, hy2, hs2, ho2⟩ := h2 a b p1 hp1
    refine ⟨p2, hp2, hx2.trans hx1, hy2.trans hy1, fun h => hs2 (hs1 h), ?_⟩
    intro h0
    have e1 := ho1 h0
    rw [ho2 (by rw [e1]; exact h0), e1]

/-- C15: on a square board, for every in-bounds `(x, y)` and every player
number `k`: `ProcessMove(x, y, k)` returns a state when `k` is 1 or 2, and in
any state it returns every cell that was sealed before is still sealed;
likewise every cell sealed in the input of `detectEnclosures` is sealed in its
output; across any sequence of session events without a reset sealed cells stay
sealed; and a reset leaves no cell sealed. -/
theorem sealed_monotone (n : Nat) (g : Game) (x y k : Int) (now : Nat)
    (hg : Square n g.State.Grid) (hin : InBoard n (x, y)) :
    (k = 1 ∨ k = 2 → ∃ g', ProcessMove g x y k now = some g') ∧
    (∀ g', ProcessMove g x y k now = some g' →
      ∀ (a b : Int) (p : Point), at2 g.State.Grid a b = some p → p.Sealed = true →
        ∃ p', at2 g'.State.Grid a b = some p' ∧ p'.Sealed = true) ∧
    (∃ newGrid enclosed, detectEnclosures g.State.Grid k = some (newGrid, enclosed) ∧
      ∀ (a b : Int) (p : Point), at2 g.State.Grid a b = some p → p.Sealed = true →
        ∃ p', at2 newGrid a b = some p' ∧ p'.Sealed = true) ∧
    (∀ ops : List Op, (∀ op ∈ ops, op ≠ Op.reset) →
      ∀ (a b : Int) (p : Point), at2 g.State.Grid a b = some p → p.Sealed = true →
        ∃ p', at2 (run g ops).State.Grid a b = some p' ∧ p'.Sealed = true) ∧
    (∀ (a b : Int) (p : Point), at2 (HandleReset g).State.Grid a b = some p →
      p.Sealed = false) := by
  refine ⟨?_, ?_, detectEnclosures_sealed_mono k hg, ?_, ?_⟩
  · intro hk
    obtain ⟨_, _, _, _, _, _, _, _, _, hpm⟩ := ProcessMove_eq (g := g) now hg hin hk
    exact ⟨_, hpm⟩
  · intro g' h a b p hp hs
    obtain ⟨_, ⟨c, c', hc, hc', _, _, _, hs'⟩, hrest⟩ := ProcessMove_cells hg hin h
    by_cases hab : a = x ∧ b = y
    · rw [hab.1, hab.2]
      exact ⟨c', hc', hs'⟩
    · obtain ⟨p', hp', _, _, _, h4⟩ := hrest a b p hp hab
      exact ⟨p', hp', h4 hs⟩
  · intro ops hops a b p hp hs
    obtain ⟨p', hp', _, _, h3, _⟩ := (run_cells ops hops g hg).2 a b p hp
    exact ⟨p', hp', h3 hs⟩
  · intro a b p hp
    exact (at2_createGrid hp).2

/-- Witness for C15: the theorem applied to `enclosureAfter`, a 4 × 4 board
with sealed cells, and the cell `(0, 0)`. -/
theorem sealed_monotone_witness :
    Square 4 enclosureAfter.State.Grid ∧ InBoard 4 ((0 : Int), (0 : Int)) ∧
    ((1 : Int) = 1 ∨ (1 : Int) = 2 → ∃ g', ProcessMove enclosureAfter 0 0 1 10 = some g') ∧
    (∀ g', ProcessMove enclosureAfter 0 0 1 10 = some g' →
      ∀ (a b : Int) (p : Point), at2 enclosureAfter.State.Grid a b = some p →
        p.Sealed = true → ∃ p', at2 g'.State.Grid a b = some p' ∧ p'.Sealed = true) ∧
    (∃ newGrid enclosed,
      detectEnclosures enclosureAfter.State.Grid 1 = some (newGrid, enclosed) ∧
      ∀ (a b : Int) (p : Point), at2 enclosureAfter.State.Grid a b = some p →
        p.Sealed = true → ∃ p', at2 newGrid a b = some p' ∧ p'.Sealed = true) ∧
    (∀ ops : List Op, (∀ op ∈ ops, op ≠ Op.reset) →
      ∀ (a b : Int) (p : Point), at2 enclosureAfter.State.Grid a b = some p →
        p.Sealed = true →
        ∃ p', at2 (run enclosureAfter ops).State.Grid a b = some p' ∧ p'.Sealed = true) ∧
    (∀ (a b : Int) (p : Point), at2 (HandleReset enclosureAfter).State.Grid a b = some p →
      p.Sealed = false) :=
  ⟨by simp [Square, enclosureAfter], by refine ⟨?_, ?_, ?_, ?_⟩ <;> decide,
    sealed_monotone 4 enclosureAfter 0 0 1 10 (by simp [Square, enclosureAfter])
      (by refine ⟨?_, ?_, ?_, ?_⟩ <;> decide)⟩

/-- C16: for every accepted move `(x, y, k)` on a square board, `ProcessMove`
returns a state when `k` is 1 or 2, and in any state it returns the board has
the same dimensions, every cell keeps its `X` and `Y`, the owner of cell
`(x, y)`, which was `0`, is `k`, and the owner of every other cell is unchanged;
hence across any sequence of session events without a reset a cell whose owner
is non-zero keeps its owner. -/
theorem owner_monotone (n : Nat) (g : Game) (x y k : Int) (now : Nat)
    (hg : Square n g.State.Grid) (hv : validMove g.State x y k = some true) :
    (k = 1 ∨ k = 2 → ∃ g', ProcessMove g x y k now = some g') ∧
    (∀ g', ProcessMove g x y k now = some g' →
      Square n g'.State.Grid ∧
      (∃ c, at2 g.State.Grid x y = some c ∧ c.Owner = 0) ∧
      ∀ (a b : Int) (p : Point), at2 g.State.Grid a b = some p →
        ∃ p', at2 g'.State.Grid a b = some p' ∧ p'.X = p.X ∧ p'.Y = p.Y ∧
          p'.Owner = if a = x ∧ b = y then k else p.Owner) ∧
    (∀ ops : List Op, (∀ op ∈ ops, op ≠ Op.reset) →
      ∀ (a b : Int) (p : Point), at2 g.State.Grid a b = some p → p.Owner ≠ 0 →
        ∃ p', at2 (run g ops).State.Grid a b = some p' ∧ p'.Owner = p.Owner) := by
  obtain ⟨hin, hzero, _⟩ := (validMove_eq_true_iff hg x y k).mp hv
  refine ⟨?_, ?_, ?_⟩
  · intro hk
    obtain ⟨_, _, _, _, _, _, _, _, _, hpm⟩ := ProcessMove_eq (g := g) now hg hin hk
    exact ⟨_, hpm⟩
  · intro g' h
    obtain ⟨hsq, ⟨c, c', hc, hc', hx, hy, ho, _⟩, hrest⟩ := ProcessMove_cells hg hin h
    refine ⟨hsq, hzero, ?_⟩
    intro a b p hp
    by_cases hab : a = x ∧ b = y
    · rw [hab.1, hab.2] at hp ⊢
      rw [hc] at hp
      cases hp
      exact ⟨c', hc', hx, hy, by simp [ho]⟩
    · obtain ⟨p', hp', h1, h2, h3, _⟩ := hrest a b p hp hab
      exact ⟨p', hp', h1, h2, by rw [if_neg hab]; exact h3⟩
  · intro ops hops a b p hp h0
    obtain ⟨p', hp', _, _, _, h4⟩ := (run_cells ops hops g hg).2 a b p hp
    exact ⟨p', hp', h4 h0⟩

/-- Witness for C16: the theorem applied to the move of participant 1 at
`(1, 2)` in `enclosureGame`. -/
theorem owner_monotone_witness :
    Square 4 enclosureGame.State.Grid ∧ validMove enclosureGame.State 1 2 1 = some true ∧
    ((1 : Int) = 1 ∨ (1 : Int) = 2 → ∃ g', ProcessMove enclosureGame 1 2 1 9 = some g') ∧
    (∀ g', ProcessMove enclosureGame 1 2 1 9 = some g' →
      Square 4 g'.State.Grid ∧
      (∃ c, at2 enclosureGame.State.Grid 1 2 = some c ∧ c.Owner = 0) ∧
      ∀ (a b : Int) (p : Point), at2 enclosureGame.State.Grid a b = some p →
        ∃ p', at2 g'.State.Grid a b = some p' ∧ p'.X = p.X ∧ p'.Y = p.Y ∧
          p'.Owner = if a = 1 ∧ b = 2 then 1 else p.Owner) ∧
    (∀ ops : List Op, (∀ op ∈ ops, op ≠ Op.reset) →
      ∀ (a b : Int) (p : Point), at2 enclosureGame.State.Grid a b = some p → p.Owner ≠ 0 →
        ∃ p', at2 (run enclosureGame ops).State.Grid a b = some p' ∧ p'.Owner = p.Owner) :=
  ⟨by simp [Square, enclosureGame], by decide,
    owner_monotone 4 enclosureGame 1 2 1 9 (by simp [Square, enclosureGame]) (by decide)⟩

/-! ## Invariants of reachable states (C14, C18) -/

/-- C14: in every session state reached from a new session by any sequence of
events (moves, ready, reset, admissions and removals), `game_over = true`
implies that no cell of the board has `owner = 0`. -/
theorem gameOver_implies_full (t : Nat) (ops : List Op)
    (hover : (run (NewGame t) ops).State.GameOver = true) :
    ∀ (x y : Int) (p : Point), at2 (run (NewGame t) ops).State.Grid x y = some p →
      p.Owner ≠ 0 :=
  (isGameOver_iff _).mp ((sessionInv_run ops (NewGame t) (sessionInv_NewGame t)).2.2 hover)

/-- C18: in every session state reached from a new session by any sequence of
events (moves, ready, reset, admissions and removals), `current_turn` is 1 or
2. -/
theorem currentTurn_one_or_two (t : Nat) (ops : List Op) :
    (run (NewGame t) ops).State.CurrentTurn = 1 ∨ (run (NewGame t) ops).State.CurrentTurn = 2 :=
  (sessionInv_run ops (NewGame t) (sessionInv_NewGame t)).2.1

/-! ## Admission limit (C17) -/

/-- C17: starting from a session without participants and admitting players
with distinct ids, the first `AddPlayer` succeeds and assigns number 1, the
second succeeds and assigns number 2, and every further `AddPlayer`, as any
`AddPlayer` on a session with two or more participants, returns false and leaves
the session (participants, state, `players_ready`) and the rejected player
(number, session id) unchanged. -/
theorem admission_limit (g : Game) (p1 p2 : Player) (hempty : g.Players = [])
    (hne : p1.ID ≠ p2.ID) :
    ∃ g1 q1 g2 q2,
      AddPlayer g p1 = (g1, q1, true) ∧ q1.Number = 1 ∧ q1.ID = p1.ID ∧
      AddPlayer g1 p2 = (g2, q2, true) ∧ q2.Number = 2 ∧ q2.ID = p2.ID ∧
      g2.Players = [q1, q2] ∧
      (∀ p3 : Player, AddPlayer g2 p3 = (g2, p3, false)) ∧
      (∀ (g' : Game) (p : Player), g'.Players.length ≥ 2 → AddPlayer g' p = (g', p, false)) := by
  have hfull : ∀ (g' : Game) (p : Player), g'.Players.length ≥ 2 →
      AddPlayer g' p = (g', p, false) := by
    intro g' p h
    unfold AddPlayer
    rw [if_pos (by simpa [MAX_PLAYERS] using h)]
  have h1 : AddPlayer g p1 =
      ({ g with Players := [{ p1 with Number := 1, GameID := g.ID }],
                State := { g.State with PlayersReady := g.State.PlayersReady ++ [false] } },
        { p1 with Number := 1, GameID := g.ID }, true) := by
    unfold AddPlayer
    rw [if_neg (by simp [hempty, MAX_PLAYERS])]
    simp [hempty, mapInsert]
  have h2 : AddPlayer
      { g with Players := [{ p1 with Number := 1, GameID := g.ID }],
               State := { g.State with PlayersReady := g.State.PlayersReady ++ [false] } } p2 =
      ({ g with Players := [{ p1 with Number := 1, GameID := g.ID },
                  { p2 with Number := 2, GameID := g.ID }],
                State := { g.State with
                  PlayersReady := (g.State.PlayersReady ++ [false]) ++ [false] } },
        { p2 with Number := 2, GameID := g.ID }, true) := by
    unfold AddPlayer
    rw [if_neg (by simp [MAX_PLAYERS])]
    simp [mapInsert, hne]
  exact ⟨_, _, _, _, h1, rfl, rfl, h2, rfl, rfl, rfl, fun p3 => hfull _ p3 (by simp), hfull⟩

/-- Witness for C17: the theorem applied to a new session and two connections. -/
theorem admission_limit_witness :
    (NewGame 0).Players = [] ∧ connA.ID ≠ connB.ID ∧
    ∃ g1 q1 g2 q2,
      AddPlayer (NewGame 0) connA = (g1, q1, true) ∧ q1.Number = 1 ∧ q1.ID = connA.ID ∧
      AddPlayer g1 connB = (g2, q2, true) ∧ q2.Number = 2 ∧ q2.ID = connB.ID ∧
      g2.Players = [q1, q2] ∧
      (∀ p3 : Player, AddPlayer g2 p3 = (g2, p3, false)) ∧
      (∀ (g' : Game) (p : Player), g'.Players.length ≥ 2 → AddPlayer g' p = (g', p, false)) :=
  ⟨rfl, by decide, admission_limit (NewGame 0) connA connB rfl (by decide)⟩

/-! ## Rejected moves (C19) -/

/-- C19: for every session state with a square board and every move
`(x, y)` of a player whose number is not the current turn, or whose `x` or `y`
is outside the board (negative included), or whose cell is already claimed,
`validMove` returns false without an out-of-range access and `HandleMove`
returns the session unchanged (board, scores, turn, game-over flag, message,
ready flags, time of the last move, participants). -/
theorem rejected_move_noop (n : Nat) (g : Game) (p : Player) (x y : Int) (now : Nat)
    (hg : Square n g.State.Grid)
    (hfail : g.State.CurrentTurn ≠ p.Number ∨ ¬ InBoard n (x, y) ∨
      ∃ c, at2 g.State.Grid x y = some c ∧ c.Owner ≠ 0) :
    validMove g.State x y p.Number = some false ∧ HandleMove g p x y now = some g := by
  have hsome := validMove_isSome hg x y p.Number
  have hv : validMove g.State x y p.Number = some false := by
    cases h : validMove g.State x y p.Number with
    | none => simp [h] at hsome
    | some b =>
      cases b with
      | false => rfl
      | true =>
        obtain ⟨hin, ⟨c, hc, h0⟩, ht⟩ := (validMove_eq_true_iff hg x y p.Number).mp h
        rcases hfail with hf | hf | ⟨c', hc', h0'⟩
        · exact absurd ht hf
        · exact absurd hin hf
        · rw [hc] at hc'
          cases hc'
          exact absurd h0 h0'
  refine ⟨hv, ?_⟩
  unfold HandleMove
  rw [hv]

/-- Witness for C19: the theorem applied to a move of participant 2 at
`(-1, 5)` in `ringGame`, where participant 1 is to move. -/
theorem rejected_move_noop_witness :
    Square 3 ringGame.State.Grid ∧
    (ringGame.State.CurrentTurn ≠ secondPlayer.Number ∨ ¬ InBoard 3 ((-1 : Int), (5 : Int)) ∨
      ∃ c, at2 ringGame.State.Grid (-1) 5 = some c ∧ c.Owner ≠ 0) ∧
    validMove ringGame.State (-1) 5 secondPlayer.Number = some false ∧
    HandleMove ringGame secondPlayer (-1) 5 3 = some ringGame :=
  ⟨by simp [Square, ringGame], Or.inl (by decide),
    rejected_move_noop 3 ringGame secondPlayer (-1) 5 3 (by simp [Square, ringGame])
      (Or.inl (by decide))⟩

/-! ## Play never encloses (C20) -/

theorem ProcessMove_over {g g' : Game} {n : Nat} {x y k : Int} {now : Nat}
    (hg : Square n g.State.Grid) (hin : InBoard n (x, y))
    (h : ProcessMove g x y k now = some g') (hover : isGameOver g'.State.Grid = true) :
    g'.State.GameOver = true ∧ g'.State.CurrentTurn = g.State.CurrentTurn ∧
      g'.State.Message = getGameResult g'.State.Grid := by
  obtain ⟨c, grid1, newGrid, enclosed, scores, _, _, _, _, _, rfl⟩ := ProcessMove_of_some hg hin h
  simp only at hover
  simp [hover]

theorem playInv_NewGame (t : Nat) : PlayInv (NewGame t) := by
  refine ⟨sessionInv_NewGame t, ?_, rfl⟩
  intro x y p hp h0
  exact absurd (at2_createGrid hp).1 h0

theorem playInv_step {g : Game} (hg : PlayInv g) (op : Op) : PlayInv (step g op) := by
  refine ⟨sessionInv_step hg.1 op, ?_⟩
  have hsame : ∀ g' : Game, g'.State.Grid = g.State.Grid → g'.State.Scores = g.State.Scores →
      OwnedSealed g'.State.Grid ∧ g'.State.Scores = (0, 0) := by
    intro g' e1 e2
    rw [e1, e2]
    exact hg.2
  cases op with
  | add p =>
    apply hsame
    · show (AddPlayer g p).1.State.Grid = g.State.Grid
      unfold AddPlayer
      split <;> rfl
    · show (AddPlayer g p).1.State.Scores = g.State.Scores
      unfold AddPlayer
      split <;> rfl
  | remove id => exact hsame _ rfl rfl
  | disconnect p =>
    apply hsame
    · show (HandleDisconnect g p).State.Grid = g.State.Grid
      unfold HandleDisconnect
      simp only
      split <;> rfl
    · show (HandleDisconnect g p).State.Scores = g.State.Scores
      unfold HandleDisconnect
      simp only
      split <;> rfl
  | ready p =>
    rcases step_ready g p with h | ⟨ready, h⟩
    · rw [h]
      exact hsame _ rfl rfl
    · rw [h]
      exact hsame _ rfl rfl
  | move p x y now =>
    have hstep : step g (Op.move p x y now) = (HandleMove g p x y now).getD g := rfl
    rw [hstep]
    cases hm : HandleMove g p x y now with
    | none => exact hsame _ rfl rfl
    | some g' =>
      show OwnedSealed g'.State.Grid ∧ g'.State.Scores = (0, 0)
      unfold HandleMove at hm
      cases hv : validMove g.State x y p.Number with
      | none => simp [hv] at hm
      | some v =>
        cases v with
        | false =>
          simp only [hv] at hm
          cases hm
          exact hg.2
        | true =>
          simp only [hv] at hm
          obtain ⟨hin, _, hturn⟩ := (validMove_eq_true_iff hg.1.1 x y p.Number).mp hv
          have hk : p.Number = 1 ∨ p.Number = 2 := by
            rw [← hturn]
            exact hg.1.2.1
          obtain ⟨g'', hpm, _, hos, hscore, _⟩ :=
            ProcessMove_ownedSealed (g := g) now hg.1.1 hin hk hg.2.1
          rw [hm] at hpm
          cases hpm
          exact ⟨hos, by rw [hscore]; exact hg.2.2⟩
  | reset => exact (playInv_NewGame 0).2

theorem playInv_run (ops : List Op) : ∀ g : Game, PlayInv g → PlayInv (run g ops) := by
  induction ops with
  | nil =>
    intro g hg
    exact hg
  | cons op rest ih =>
    intro g hg
    exact ih (step g op) (playInv_step hg op)

/-- Play never encloses: in every session state reached from a new session by
any sequence of events, every claimed cell is sealed and the scores are
`[0, 0]`; and every accepted move in such a state produces no enclosure, leaves
the scores at `[0, 0]` and every claimed cell sealed, and passes the turn to the
other participant when it leaves an unclaimed cell. The move that claims the
last unclaimed cell goes through the game-over branch of `ProcessMove`, which
does not write `current_turn`. -/
theorem play_never_encloses (t : Nat) (ops : List Op) :
    OwnedSealed (run (NewGame t) ops).State.Grid ∧
    (run (NewGame t) ops).State.Scores = (0, 0) ∧
    ∀ (p : Player) (x y : Int) (now : Nat),
      validMove (run (NewGame t) ops).State x y p.Number = some true →
      ∃ c grid1 newGrid g',
        at2 (run (NewGame t) ops).State.Grid x y = some c ∧
        set2 (run (NewGame t) ops).State.Grid x y { c with Owner := p.Number } = some grid1 ∧
        detectEnclosures grid1 p.Number = some (newGrid, false) ∧
        HandleMove (run (NewGame t) ops) p x y now = some g' ∧
        g'.State.Grid = newGrid ∧ OwnedSealed g'.State.Grid ∧ g'.State.Scores = (0, 0) ∧
        (isGameOver newGrid = false →
          g'.State.CurrentTurn = p.Number % 2 + 1 ∧ g'.State.CurrentTurn ≠ p.Number) ∧
        (isGameOver newGrid = true → g'.State.CurrentTurn = p.Number) := by
  have hinv := playInv_run ops (NewGame t) (playInv_NewGame t)
  generalize run (NewGame t) ops = g at hinv
  obtain ⟨⟨hsq, hturn12, _⟩, hos, hsc⟩ := hinv
  refine ⟨hos, hsc, ?_⟩
  intro p x y now hv
  obtain ⟨hin, _, hturn⟩ := (validMove_eq_true_iff hsq x y p.Number).mp hv
  have hk : p.Number = 1 ∨ p.Number = 2 := by
    rw [← hturn]
    exact hturn12
  obtain ⟨c, grid1, newGrid, enclosed, hc, h1, _, hd, _, hpm⟩ := ProcessMove_eq now hsq hin hk
  obtain ⟨_, _, hC⟩ := detect_after_place hsq h1 hd
  obtain ⟨he, hos'⟩ := hC hos
  subst he
  have hhm := hpm
  rw [show ProcessMove g x y p.Number now = HandleMove g p x y now by
    unfold HandleMove
    rw [hv]] at hhm
  refine ⟨c, grid1, newGrid, _, hc, h1, hd, hhm, rfl, hos', ?_, ?_, ?_⟩
  · simpa using hsc
  · intro hover
    have h2 := tmod_two_add_one hk
    simp only [hover, Bool.false_eq_true, or_self, if_false]
    refine ⟨h2.1, ?_⟩
    rcases hk with e | e <;> rw [e] <;> decide
  · intro hover
    simp [hover, hturn]

/-! ## The game that fills the board in row order -/

theorem run_snoc (g : Game) (ops : List Op) (op : Op) :
    run g (ops ++ [op]) = step (run g ops) op := by
  unfold run
  rw [List.foldl_append]
  rfl

theorem fillOps_succ (m : Nat) : fillOps (m + 1) = fillOps m ++ [fillOp m] := by
  unfold fillOps
  rw [List.range_succ, List.map_append]
  rfl

theorem fillPlayer_number (m : Nat) :
    ((fillPlayer m).Number = 1 ∨ (fillPlayer m).Number = 2) ∧
    (fillPlayer m).Number.tmod 2 + 1 = (fillPlayer (m + 1)).Number := by
  unfold fillPlayer
  rcases Nat.mod_two_eq_zero_or_one m with h | h
  · have h' : (m + 1) % 2 ≠ 0 := by omega
    rw [if_pos h, if_neg h']
    exact ⟨Or.inl rfl, by decide⟩
  · have h0 : m % 2 ≠ 0 := by omega
    have h' : (m + 1) % 2 = 0 := by omega
    rw [if_neg h0, if_pos h']
    exact ⟨Or.inr rfl, by decide⟩

/-- The session after the first `m` moves of the row-order game: all of them
were accepted, the cells claimed are exactly the first `m` in row order, and
while a cell is left the turn alternates; after the last move the game is over
and `current_turn` is still 2, the number of the last mover. -/
theorem fill_run (m : Nat) (hm : m ≤ 4096) :
    Square 64 (run (NewGame 0) (fillOps m)).State.Grid ∧
    OwnedSealed (run (NewGame 0) (fillOps m)).State.Grid ∧
    (∀ (x y : Int) (p : Point), at2 (run (NewGame 0) (fillOps m)).State.Grid x y = some p →
      (p.Owner = 0 ↔ (m : Int) ≤ y * 64 + x)) ∧
    (m < 4096 → (run (NewGame 0) (fillOps m)).State.CurrentTurn = (fillPlayer m).Number ∧
      (run (NewGame 0) (fillOps m)).State.GameOver = false) ∧
    (m = 4096 → (run (NewGame 0) (fillOps m)).State.GameOver = true ∧
      (run (NewGame 0) (fillOps m)).State.CurrentTurn = 2) := by
  induction m with
  | zero =>
    have hrun : run (NewGame 0) (fillOps 0) = NewGame 0 := rfl
    rw [hrun]
    refine ⟨square_createGrid 64, (playInv_NewGame 0).2.1, ?_, fun _ => ⟨rfl, rfl⟩, ?_⟩
    · intro x y p hp
      have hin := at2_inb (square_createGrid 64) hp
      obtain ⟨h1, _, h3, _⟩ := hin
      constructor
      · intro _
        push_cast
        omega
      · intro _
        exact (at2_createGrid hp).1
    · intro h
      cases h
  | succ m ih =>
    have hlt : m < 4096 := by omega
    obtain ⟨hsq, hos, hcells, hturn, _⟩ := ih (by omega)
    obtain ⟨hturn, hgo⟩ := hturn hlt
    rw [fillOps_succ, run_snoc]
    generalize run (NewGame 0) (fillOps m) = g at hsq hos hcells hturn hgo
    have hin : InBoard 64 (((m % 64 : Nat) : Int), ((m / 64 : Nat) : Int)) := by
      refine ⟨?_, ?_, ?_, ?_⟩ <;> simp only <;> omega
    obtain ⟨c0, hc0⟩ := at2_some_of_inb hsq hin.1 hin.2.1 hin.2.2.1 hin.2.2.2
    have hown : c0.Owner = 0 := by
      rw [hcells _ _ c0 hc0]
      omega
    have hk := (fillPlayer_number m).1
    have hv : validMove g.State (((m % 64 : Nat) : Int)) (((m / 64 : Nat) : Int)) (fillPlayer m).Number
        = some true :=
      (validMove_eq_true_iff hsq _ _ _).mpr ⟨hin, ⟨c0, hc0, hown⟩, hturn⟩
    obtain ⟨g', hpm, hsq', hos', _, _, ⟨c, hc, hc'⟩, hrest, hnext⟩ :=
      ProcessMove_ownedSealed (g := g) m hsq hin hk hos
    have hstep : step g (fillOp m) = g' := by
      show (HandleMove g (fillPlayer m) (((m % 64 : Nat) : Int)) (((m / 64 : Nat) : Int)) m).getD g = g'
      unfold HandleMove
      rw [hv]
      simp only [hpm]
      rfl
    rw [hstep]
    have hcells' : ∀ (x y : Int) (p : Point), at2 g'.State.Grid x y = some p →
        (p.Owner = 0 ↔ ((m + 1 : Nat) : Int) ≤ y * 64 + x) := by
      intro a b p' hp'
      have hab := at2_inb hsq' hp'
      obtain ⟨ha0, ha1, hb0, hb1⟩ := hab
      by_cases he : a = ((m % 64 : Nat) : Int) ∧ b = ((m / 64 : Nat) : Int)
      · rw [he.1, he.2, hc'] at hp'
        cases hp'
        constructor
        · intro h0
          rcases hk with e | e <;> rw [e] at h0 <;> cases h0
        · intro h
          exfalso
          push_cast at h
          omega
      · obtain ⟨p, hp⟩ := at2_some_of_inb hsq ha0 ha1 hb0 hb1
        obtain ⟨q, hq, _, _, ho, _⟩ := hrest a b p hp he
        rw [hp'] at hq
        cases hq
        rw [ho, hcells a b p hp]
        push_cast
        constructor
        · intro h
          by_contra hcon
          apply he
          constructor <;> omega
        · intro h
          omega
    refine ⟨hsq', hos', hcells', ?_, ?_⟩
    · intro hlt'
      have hin1 : InBoard 64 ((((m + 1) % 64 : Nat) : Int), (((m + 1) / 64 : Nat) : Int)) := by
        refine ⟨?_, ?_, ?_, ?_⟩ <;> simp only <;> omega
      obtain ⟨c1, hc1⟩ := at2_some_of_inb hsq' hin1.1 hin1.2.1 hin1.2.2.1 hin1.2.2.2
      have hown1 : c1.Owner = 0 := by
        rw [hcells' _ _ c1 hc1]
        push_cast
        omega
      have hover : isGameOver g'.State.Grid = false := by
        cases h : isGameOver g'.State.Grid with
        | false => rfl
        | true => exact absurd hown1 ((isGameOver_iff _).mp h _ _ c1 hc1)
      obtain ⟨ht, hg'⟩ := hnext hover
      exact ⟨by rw [ht, (fillPlayer_number m).2], by rw [hg', hgo]⟩
    · intro hfull
      have hm' : m = 4095 := by omega
      have hover : isGameOver g'.State.Grid = true := by
        rw [isGameOver_iff]
        intro a b p hp h0
        have hab := at2_inb hsq' hp
        obtain ⟨ha0, ha1, hb0, hb1⟩ := hab
        have := (hcells' a b p hp).mp h0
        push_cast at this
        omega
      obtain ⟨h1, h2, _⟩ := ProcessMove_over hsq hin hpm hover
      refine ⟨h1, ?_⟩
      rw [h2, hturn, hm']
      decide

theorem fill_accepted (i : Nat) (hi : i < 4096) :
    validMove (run (NewGame 0) (fillOps i)).State ((i % 64 : Nat) : Int) ((i / 64 : Nat) : Int)
      (fillPlayer i).Number = some true := by
  obtain ⟨hsq, _, hcells, hturn, _⟩ := fill_run i (by omega)
  have hin : InBoard 64 (((i % 64 : Nat) : Int), ((i / 64 : Nat) : Int)) := by
    refine ⟨?_, ?_, ?_, ?_⟩ <;> simp only <;> omega
  obtain ⟨c0, hc0⟩ := at2_some_of_inb hsq hin.1 hin.2.1 hin.2.2.1 hin.2.2.2
  have hown : c0.Owner = 0 := by
    rw [hcells _ _ c0 hc0]
    omega
  exact (validMove_eq_true_iff hsq _ _ _).mpr ⟨hin, ⟨c0, hc0, hown⟩, (hturn hi).1⟩

/-- C20: in the game that claims the 64 × 64 board cell by cell in row order,
participants alternating, every move is accepted; the last move, by
participant 2 at `(63, 63)`, is made in a state reached from a new session by
accepted moves only, and after it `current_turn` is still 2: the mover keeps
the turn, through the game-over branch of `ProcessMove`. -/
theorem last_move_keeps_turn :
    (∀ i : Nat, i < 4096 →
      validMove (run (NewGame 0) (fillOps i)).State ((i % 64 : Nat) : Int)
        ((i / 64 : Nat) : Int) (fillPlayer i).Number = some true) ∧
    validMove (run (NewGame 0) (fillOps 4095)).State 63 63 secondPlayer.Number = some true ∧
    ∃ g', HandleMove (run (NewGame 0) (fillOps 4095)) secondPlayer 63 63 4095 = some g' ∧
      g'.State.GameOver = true ∧ g'.State.CurrentTurn = secondPlayer.Number := by
  have hlast := fill_accepted 4095 (by decide)
  have hop : fillOp 4095 = Op.move secondPlayer 63 63 4095 := rfl
  have hp : fillPlayer 4095 = secondPlayer := rfl
  rw [hp] at hlast
  have hrun : run (NewGame 0) (fillOps 4096)
      = (HandleMove (run (NewGame 0) (fillOps 4095)) secondPlayer 63 63 4095).getD
          (run (NewGame 0) (fillOps 4095)) := by
    rw [fillOps_succ 4095, run_snoc, hop]
    rfl
  have hinv := sessionInv_run (fillOps 4095) (NewGame 0) (sessionInv_NewGame 0)
  have hsome := HandleMove_runs hinv secondPlayer 63 63 4095
  obtain ⟨_, _, _, _, hend⟩ := fill_run 4096 (le_refl _)
  obtain ⟨hgo, hturn⟩ := hend rfl
  refine ⟨fill_accepted, hlast, ?_⟩
  cases hm : HandleMove (run (NewGame 0) (fillOps 4095)) secondPlayer 63 63 4095 with
  | none => simp [hm] at hsome
  | some g' =>
    rw [hm] at hrun
    simp only [Option.getD_some] at hrun
    rw [hrun] at hgo hturn
    exact ⟨g', rfl, hgo, hturn⟩

/-- Witness for C14: the theorem applied to the session after the 4096 moves of
the row-order game, in which `game_over` is true. -/
theorem gameOver_implies_full_witness :
    (run (NewGame 0) (fillOps 4096)).State.GameOver = true ∧
    ∀ (x y : Int) (p : Point), at2 (run (NewGame 0) (fillOps 4096)).State.Grid x y = some p →
      p.Owner ≠ 0 :=
  ⟨((fill_run 4096 (le_refl _)).2.2.2.2 rfl).1,
    gameOver_implies_full 0 (fillOps 4096) ((fill_run 4096 (le_refl _)).2.2.2.2 rfl).1⟩

/-! ## Idempotence of `detectEnclosures` (C21) -/

theorem grid_ext {α : Type} {n : Nat} {a b : List (List α)} (ha : Square n a)
    (hb : Square n b) (h : ∀ x y : Int, at2 a x y = at2 b x y) : a = b := by
  apply List.ext_getElem (ha.1.trans hb.1.symm)
  intro i h1 h2
  have hra : (a[i]).length = n := ha.2 _ (List.getElem_mem _)
  have hrb : (b[i]).length = n := hb.2 _ (List.getElem_mem _)
  apply List.ext_getElem (hra.trans hrb.symm)
  intro j h3 h4
  have e := h (j : Int) (i : Int)
  have e1 : idx a (i : Int) = some a[i] := by simp [idx, List.getElem?_eq_getElem h1]
  have e2 : idx b (i : Int) = some b[i] := by simp [idx, List.getElem?_eq_getElem h2]
  have e3 : idx a[i] (j : Int) = some a[i][j] := by simp [idx, List.getElem?_eq_getElem h3]
  have e4 : idx b[i] (j : Int) = some b[i][j] := by simp [idx, List.getElem?_eq_getElem h4]
  simp only [at2, e1, e2, e3, e4, Option.some.injEq] at e
  exact e

/-- After `detectEnclosures` for player `k`, a second run for the same player on
the result returns the same board and reports no enclosure. -/
theorem detectEnclosures_twice {grid : List (List Point)} {n : Nat} (k : Int)
    (hg : Square n grid) :
    ∃ g1 e1, detectEnclosures grid k = some (g1, e1) ∧ Square n g1 ∧
      detectEnclosures g1 k = some (g1, false) := by
  obtain ⟨g1, e1, hd1, hsq1, hcell1, _⟩ := detectEnclosures_reach k hg
  obtain ⟨g2, e2, hd2, hsq2, hcell2, hflag2⟩ := detectEnclosures_reach k hsq1
  have hkeep : ∀ c : Int × Int, Reach grid n k c → Reach g1 n k c := by
    intro c hr
    have htrav : ∀ d : Int × Int, Reach grid n k d → Traversable g1 k d := by
      intro d hd
      obtain ⟨p, hp, ho, hs⟩ := reach_traversable hd
      obtain ⟨q, hq, _, _, hqo, hqs⟩ := hcell1 d p hp
      refine ⟨q, hq, by rw [hqo]; exact ho, ?_⟩
      cases hq' : q.Sealed with
      | false => rfl
      | true =>
        rcases hqs.mp hq' with h | h
        · rw [hs] at h
          cases h
        · exact absurd hd h
    induction hr with
    | seed c hf ht => exact Reach.seed c hf (htrav c (Reach.seed c hf ht))
    | step a b ha hab hb ih => exact Reach.step a b ih hab (htrav b (Reach.step a b ha hab hb))
  have hunsealed : ∀ (c : Int × Int) (q : Point), at2 g1 c.1 c.2 = some q →
      ¬ Reach g1 n k c → q.Sealed = true := by
    intro c q hq hnr
    have hin := at2_inb hsq1 hq
    obtain ⟨p, hp⟩ := at2_some_of_inb hg hin.1 hin.2.1 hin.2.2.1 hin.2.2.2
    obtain ⟨q', hq', _, _, _, hqs⟩ := hcell1 c p hp
    rw [hq] at hq'
    cases hq'
    exact hqs.mpr (Or.inr (fun hr => hnr (hkeep c hr)))
  have he2 : e2 = false := by
    cases he : e2 with
    | false => rfl
    | true =>
      obtain ⟨c, q, hq, hnr, hs, _⟩ := hflag2.mp he
      have := hunsealed c q hq hnr
      rw [hs] at this
      cases this
  have hgrid : g2 = g1 := by
    apply grid_ext hsq2 hsq1
    intro x y
    cases hq : at2 g1 x y with
    | none =>
      cases hq2 : at2 g2 x y with
      | none => rfl
      | some r =>
        have hin := at2_inb hsq2 hq2
        obtain ⟨q, hq'⟩ := at2_some_of_inb hsq1 hin.1 hin.2.1 hin.2.2.1 hin.2.2.2
        rw [hq] at hq'
        cases hq'
    | some q =>
      obtain ⟨r, hr, hx, hy, ho, hs⟩ := hcell2 (x, y) q hq
      rw [hr]
      have hseal : r.Sealed = q.Sealed := by
        cases hqs : q.Sealed with
        | true => exact hs.mpr (Or.inl hqs)
        | false =>
          cases hrs : r.Sealed with
          | false => rfl
          | true =>
            rcases hs.mp hrs with h | h
            · rw [hqs] at h
              cases h
            · have := hunsealed (x, y) q hq h
              rw [hqs] at this
              cases this
      cases r
      cases q
      simp only at hx hy ho hseal
      simp [hx, hy, ho, hseal]
  subst he2
  subst hgrid
  exact ⟨g2, e1, hd1, hsq1, hd2⟩

/-- C21: for every square board and every player `k`, `detectEnclosures`
returns a pair `(g1, e1)`, and a second call for the same player on `g1`
returns `(g1, false)`: it seals nothing new and reports no enclosure, so
`calculateScore` for `k` is the same on the result of the second pass. -/
theorem detectEnclosures_idempotent (n : Nat) (grid : List (List Point)) (k : Int)
    (hg : Square n grid) :
    ∃ g1 e1, detectEnclosures grid k = some (g1, e1) ∧
      detectEnclosures g1 k = some (g1, false) ∧
      ∀ g2 e2, detectEnclosures g1 k = some (g2, e2) →
        g2 = g1 ∧ e2 = false ∧ calculateScore g2 k = calculateScore g1 k := by
  obtain ⟨g1, e1, hd1, _, hd2⟩ := detectEnclosures_twice k hg
  refine ⟨g1, e1, hd1, hd2, ?_⟩
  intro g2 e2 h
  rw [hd2] at h
  cases h
  exact ⟨rfl, rfl, rfl⟩

/-- Witness for C21: the theorem applied to the 3 × 3 ring board and player 1. -/
theorem detectEnclosures_idempotent_witness :
    Square 3 ringBoard ∧
    ∃ g1 e1, detectEnclosures ringBoard 1 = some (g1, e1) ∧
      detectEnclosures g1 1 = some (g1, false) ∧
      ∀ g2 e2, detectEnclosures g1 1 = some (g2, e2) →
        g2 = g1 ∧ e2 = false ∧ calculateScore g2 1 = calculateScore g1 1 :=
  ⟨by simp [Square, ringBoard],
    detectEnclosures_idempotent 3 ringBoard 1 (by simp [Square, ringBoard])⟩

/-! ## Bound on the search (C22) -/

theorem bfsTrace_erase (grid : List (List Point)) (k size : Int) :
    ∀ (fuel : Nat) (q : List (Int × Int)) (vis : List (List Bool)) (tr : BfsTrace),
      (bfsTrace grid k size fuel q vis tr).map Prod.fst = bfs grid k size fuel q vis := by
  intro fuel
  induction fuel with
  | zero =>
    intro q vis tr
    cases q with
    | nil => simp [bfsTrace, bfs]
    | cons c rest => simp [bfsTrace, bfs]
  | succ fuel ih =>
    intro q vis tr
    cases q with
    | nil => simp [bfsTrace, bfs]
    | cons c rest =>
      obtain ⟨x, y⟩ := c
      simp only [bfsTrace, bfs]
      cases hv : at2 vis x y with
      | none => rfl
      | some b =>
        cases b with
        | true => exact ih _ _ _
        | false =>
          simp only
          cases hp : at2 grid x y with
          | none => rfl
          | some p =>
            simp only
            split
            · exact ih _ _ _
            · cases hs : set2 vis x y true with
              | none => rfl
              | some vis' =>
                simp only
                cases hq : pushNeighbours size vis' x y rest directions with
                | none => rfl
                | some q' => exact ih _ _ _

theorem pushNeighbours_prefix (size : Int) (visited : List (List Bool)) (x y : Int) :
    ∀ (ds queue q' : List (Int × Int)), pushNeighbours size visited x y queue ds = some q' →
      ∃ new, q' = queue ++ new := by
  intro ds
  induction ds with
  | nil =>
    intro queue q' h
    simp only [pushNeighbours, Option.some.injEq] at h
    exact ⟨[], by simp [h]⟩
  | cons d ds ih =>
    intro queue q' h
    unfold pushNeighbours at h
    split at h
    · cases hv : at2 visited (x + d.1) (y + d.2) with
      | none => simp [hv] at h
      | some b =>
        cases b with
        | true =>
          simp only [hv] at h
          exact ih queue q' h
        | false =>
          simp only [hv] at h
          obtain ⟨new, hnew⟩ := ih _ q' h
          exact ⟨(x + d.1, y + d.2) :: new, by rw [hnew]; simp⟩
    · exact ih queue q' h

/-- The search loop with counters, from any state that satisfies the
bookkeeping invariants: it returns within the iteration budget
`|queue| + 4 · unvisited`, no cell is marked twice, at most four coordinates
are pushed per marked cell, all of them inside the board, and every coordinate
that was ever queued has been dequeued by exactly one iteration. -/
theorem bfsTrace_count {grid : List (List Point)} {n : Nat} (k : Int) (hg : Square n grid)
    (total : Nat) :
    ∀ (fuel : Nat) (q : List (Int × Int)) (vis : List (List Bool)) (tr : BfsTrace),
      Square n vis →
      (∀ c ∈ q, InBoard n c) →
      q.length + 4 * unvisited vis ≤ fuel →
      tr.marked.Nodup →
      (∀ c ∈ tr.marked, at2 vis c.1 c.2 = some true) →
      tr.marked.length + unvisited vis = n * n →
      tr.pushed.length ≤ 4 * tr.marked.length →
      (∀ c ∈ tr.pushed, InBoard n c) →
      tr.iterations + q.length = total + tr.pushed.length →
      ∃ vis' tr', bfsTrace grid k (n : Int) fuel q vis tr = some (vis', tr') ∧
        tr'.marked.Nodup ∧ tr'.marked.length ≤ n * n ∧
        tr'.pushed.length ≤ 4 * tr'.marked.length ∧
        (∀ c ∈ tr'.pushed, InBoard n c) ∧
        tr'.iterations = total + tr'.pushed.length := by
  intro fuel
  induction fuel with
  | zero =>
    intro q vis tr _ _ hfuel hnd _ hlen hpush hpin hit
    have hq : q = [] := by
      cases q with
      | nil => rfl
      | cons a t => simp at hfuel
    subst hq
    refine ⟨vis, tr, by simp [bfsTrace], hnd, by omega, hpush, hpin, ?_⟩
    simpa using hit
  | succ fuel ih =>
    intro q vis tr hv hin hfuel hnd hmark hlen hpush hpin hit
    cases q with
    | nil =>
      refine ⟨vis, tr, by simp [bfsTrace], hnd, by omega, hpush, hpin, ?_⟩
      simpa using hit
    | cons c rest =>
      obtain ⟨x, y⟩ := c
      have hxy : InBoard n (x, y) := hin _ (List.mem_cons_self _ _)
      have hinr : ∀ c ∈ rest, InBoard n c := fun c hc => hin c (List.mem_cons_of_mem _ hc)
      simp only [List.length_cons] at hfuel hit
      obtain ⟨b, hb⟩ := at2_some_of_inb hv hxy.1 hxy.2.1 hxy.2.2.1 hxy.2.2.2
      cases b with
      | true =>
        have hstep : bfsTrace grid k (n : Int) (fuel + 1) ((x, y) :: rest) vis tr
            = bfsTrace grid k (n : Int) fuel rest vis
                { tr with iterations := tr.iterations + 1 } := by
          simp only [bfsTrace, hb]
        rw [hstep]
        exact ih rest vis _ hv hinr (by omega) hnd hmark hlen hpush hpin
          (by simp only; omega)
      | false =>
        obtain ⟨p, hp⟩ := at2_some_of_inb hg hxy.1 hxy.2.1 hxy.2.2.1 hxy.2.2.2
        by_cases hskip : p.Owner = k ∨ p.Sealed = true
        · have hstep : bfsTrace grid k (n : Int) (fuel + 1) ((x, y) :: rest) vis tr
              = bfsTrace grid k (n : Int) fuel rest vis
                  { tr with iterations := tr.iterations + 1 } := by
            simp only [bfsTrace, hb, hp, if_pos hskip]
          rw [hstep]
          exact ih rest vis _ hv hinr (by omega) hnd hmark hlen hpush hpin
            (by simp only; omega)
        · obtain ⟨vis', hset⟩ := set2_some_of_inb hv hxy.1 hxy.2.1 hxy.2.2.1 hxy.2.2.2 true
          have hv' : Square n vis' := set2_square hv hset
          obtain ⟨q', hpushq, hqlen, hmem⟩ := pushNeighbours_spec hv' x y directions rest
          obtain ⟨new, hnew⟩ := pushNeighbours_prefix (n : Int) vis' x y directions rest q' hpushq
          have hstep : bfsTrace grid k (n : Int) (fuel + 1) ((x, y) :: rest) vis tr
              = bfsTrace grid k (n : Int) fuel q' vis'
                  { iterations := tr.iterations + 1
                    marked := tr.marked ++ [(x, y)]
                    pushed := tr.pushed ++ q'.drop rest.length } := by
            simp only [bfsTrace, hb, hp, if_neg hskip, hset, hpushq]
          rw [hstep]
          have hcount := unvisited_set2 hb hset
          have hdir : directions.length = 4 := rfl
          have hdrop : q'.drop rest.length = new := by
            rw [hnew]
            simp
          have hnewlen : q'.length = rest.length + new.length := by
            rw [hnew]
            simp
          have hq'in : ∀ c ∈ q', InBoard n c := by
            intro c hc
            rcases (hmem c).mp hc with h | h
            · exact hinr c h
            · exact h.2.1
          have hnotmem : (x, y) ∉ tr.marked := by
            intro hmem'
            have := hmark _ hmem'
            rw [hb] at this
            cases this
          refine ih q' vis' _ hv' hq'in (by omega) ?_ ?_ ?_ ?_ ?_ ?_
          · show (tr.marked ++ [(x, y)]).Nodup
            rw [List.nodup_append]
            refine ⟨hnd, List.nodup_singleton _, ?_⟩
            intro a ha1 ha2
            rw [List.mem_singleton] at ha2
            subst ha2
            exact hnotmem ha1
          · intro c hc
            have hc' : c ∈ tr.marked ++ [(x, y)] := hc
            rw [at2_set2 hset]
            rcases List.mem_append.mp hc' with h | h
            · split
              · rfl
              · exact hmark c h
            · rw [List.mem_singleton] at h
              subst h
              simp
          · show (tr.marked ++ [(x, y)]).length + unvisited vis' = n * n
            rw [List.length_append, List.length_singleton]
            omega
          · show (tr.pushed ++ q'.drop rest.length).length ≤ 4 * (tr.marked ++ [(x, y)]).length
            rw [hdrop, List.length_append, List.length_append, List.length_singleton]
            omega
          · intro c hc
            have hc' : c ∈ tr.pushed ++ q'.drop rest.length := hc
            rcases List.mem_append.mp hc' with h | h
            · exact hpin c h
            · exact hq'in c (List.mem_of_mem_drop h)
          · show tr.iterations + 1 + q'.length = total + (tr.pushed ++ q'.drop rest.length).length
            rw [hdrop, List.length_append]
            omega

/-- C22: on every square `n × n` board the search of `detectEnclosures`
terminates: run with any iteration budget of at least `4 · n + 4 · n²` (the
budget passed by `detectEnclosures` included) it returns; every coordinate that
is ever queued, seeded or pushed, lies inside the board; no cell is marked
visited twice; at most `4 · n + 4 · n²` coordinates are ever appended to the
queue; and the loop body runs once per appended coordinate, hence at most
`4 · n + 4 · n²` times. -/
theorem bfs_bound (n : Nat) (grid : List (List Point)) (k : Int) (fuel : Nat)
    (hg : Square n grid) (hfuel : 4 * n + 4 * n * n ≤ fuel) :
    ∃ vis tr,
      bfsTrace grid k (n : Int) fuel (edgeQueue n) (List.replicate n (List.replicate n false))
        { iterations := 0, marked := [], pushed := [] } = some (vis, tr) ∧
      bfs grid k (n : Int) fuel (edgeQueue n) (List.replicate n (List.replicate n false))
        = some vis ∧
      (∀ c ∈ edgeQueue n ++ tr.pushed, InBoard n c) ∧
      tr.marked.Nodup ∧ tr.marked.length ≤ n * n ∧
      (edgeQueue n ++ tr.pushed).length ≤ 4 * n + 4 * n * n ∧
      tr.iterations = (edgeQueue n ++ tr.pushed).length ∧
      tr.iterations ≤ 4 * n + 4 * n * n := by
  have hlen := length_edgeQueue n
  have hun := unvisited_replicate n n
  obtain ⟨vis, tr, hrun, hnd, hmlen, hpush, hpin, hit⟩ :=
    bfsTrace_count k hg (4 * n) fuel (edgeQueue n) (List.replicate n (List.replicate n false))
      { iterations := 0, marked := [], pushed := [] } (square_replicate n false)
      (fun c hc => ((mem_edgeQueue n c).mp hc).1)
      (by
        rw [hlen, hun]
        have : 4 * (n * n) = 4 * n * n := by ring
        omega)
      List.nodup_nil
      (fun c hc => by cases hc)
      (by simp [hun])
      (by simp)
      (fun c hc => by cases hc)
      (by simp [hlen])
  have herase := bfsTrace_erase grid k (n : Int) fuel (edgeQueue n)
    (List.replicate n (List.replicate n false)) { iterations := 0, marked := [], pushed := [] }
  rw [hrun] at herase
  have hmul : 4 * (n * n) = 4 * n * n := by ring
  refine ⟨vis, tr, hrun, herase.symm, ?_, hnd, hmlen, ?_, ?_, ?_⟩
  · intro c hc
    rcases List.mem_append.mp hc with h | h
    · exact ((mem_edgeQueue n c).mp h).1
    · exact hpin c h
  · rw [List.length_append, hlen]
    omega
  · rw [List.length_append, hlen]
    exact hit
  · omega

/-- Witness for C22: the theorem applied to the 3 × 3 ring board, player 1 and
the budget `4 · 3 + 4 · 3² = 48`. -/
theorem bfs_bound_witness :
    Square 3 ringBoard ∧ 4 * 3 + 4 * 3 * 3 ≤ 48 ∧
    ∃ vis tr,
      bfsTrace ringBoard 1 ((3 : Nat) : Int) 48 (edgeQueue 3)
        (List.replicate 3 (List.replicate 3 false))
        { iterations := 0, marked := [], pushed := [] } = some (vis, tr) ∧
      bfs ringBoard 1 ((3 : Nat) : Int) 48 (edgeQueue 3)
        (List.replicate 3 (List.replicate 3 false)) = some vis ∧
      (∀ c ∈ edgeQueue 3 ++ tr.pushed, InBoard 3 c) ∧
      tr.marked.Nodup ∧ tr.marked.length ≤ 3 * 3 ∧
      (edgeQueue 3 ++ tr.pushed).length ≤ 4 * 3 + 4 * 3 * 3 ∧
      tr.iterations = (edgeQueue 3 ++ tr.pushed).length ∧
      tr.iterations ≤ 4 * 3 + 4 * 3 * 3 :=
  ⟨by simp [Square, ringBoard], by decide,
    bfs_bound 3 ringBoard 1 48 (by simp [Square, ringBoard]) (by decide)⟩

end Enclose
